import Mathlib

set_option maxRecDepth 100000

/-!
Verification of the AskMyRace extraction/retrieval core.

This file gives a shallow embedding, in Lean 4, of the Python code under
backend/app (pdf_loader.py, document_registry.py, schedule_extractor.py and
the heuristic layer of main.py), and proves or refutes the frozen claims
about it.

Modelling conventions, used throughout:
- Python strings are modelled as List Char (abbreviated Str); only ASCII
  case conversion matters for this code, matching Char.toLower and
  Char.toUpper.
- numpy float64 arithmetic is modelled by exact fraction arithmetic on the
  executable type Frac below (an integer numerator with a positive natural
  denominator).  All fraction operations are definable by structural
  recursion so that concrete runs of the embedded code reduce inside the
  kernel.  Division by a value equal to zero yields the junk value 0, and
  the theorems about the retriever show this branch is never taken.
- np.argsort is modelled as a stable ascending sort of the index list
  (numpy uses insertion sort, which is stable, for the short score arrays
  this application produces); the model sorts indices by the lexicographic
  key (score, index), which is exactly the stable ascending argsort.
- Python regular expressions are executed by a small backtracking matcher
  (leftmost match, lazy and greedy repetition over character classes,
  ordered alternation, optional groups), mirroring the semantics of the
  re module for the concrete patterns appearing in the source.
- External collaborators (pypdf text extraction, the langchain text
  splitter, uuid4, pdfplumber word extraction, np.linalg.norm) are inputs
  of the embedded functions.
-/

/-- Python strings, as lists of characters. -/
abbrev Str := List Char

namespace AskMyRace

/-! ### Exact fraction arithmetic standing in for float64 -/

/-- An exact fraction: numerator over a positive natural denominator.
Models the float values flowing through the retrieval and schedule code. -/
structure Frac where
  num : Int
  den : Nat
  den_ne : den ≠ 0

instance : DecidableEq Frac := fun a b =>
  if h : a.num = b.num ∧ a.den = b.den then
    isTrue (by cases a; cases b; simp_all)
  else
    isFalse (by intro e; cases e; simp_all)

/-- Embed an integer as a fraction. -/
def Frac.ofInt (n : Int) : Frac := ⟨n, 1, one_ne_zero⟩

/-- Build the fraction n / d for a positive natural d. -/
def Frac.mk10 (n : Int) (d : Nat) (h : d ≠ 0) : Frac := ⟨n, d, h⟩

/-- The fraction 0. -/
def f0 : Frac := Frac.ofInt 0

/-- Addition of fractions. -/
def fadd (a b : Frac) : Frac :=
  ⟨a.num * (b.den : Int) + b.num * (a.den : Int), a.den * b.den,
    Nat.mul_ne_zero a.den_ne b.den_ne⟩

/-- Subtraction of fractions. -/
def fsub (a b : Frac) : Frac :=
  ⟨a.num * (b.den : Int) - b.num * (a.den : Int), a.den * b.den,
    Nat.mul_ne_zero a.den_ne b.den_ne⟩

/-- Multiplication of fractions. -/
def fmul (a b : Frac) : Frac :=
  ⟨a.num * b.num, a.den * b.den, Nat.mul_ne_zero a.den_ne b.den_ne⟩

/-- Division of fractions.  Division by a fraction whose value is zero
returns the junk value 0; the retriever theorems show the embedded code
never exercises this branch. -/
def fdiv (a b : Frac) : Frac :=
  if h : b.num = 0 then f0
  else
    ⟨(if b.num < 0 then -(a.num * (b.den : Int)) else a.num * (b.den : Int)),
      a.den * b.num.natAbs,
      Nat.mul_ne_zero a.den_ne (Int.natAbs_ne_zero.mpr h)⟩

/-- Value-level less-or-equal on fractions (cross multiplication). -/
def fle (a b : Frac) : Bool := a.num * (b.den : Int) ≤ b.num * (a.den : Int)

/-- Value-level strict less-than on fractions. -/
def flt (a b : Frac) : Bool := a.num * (b.den : Int) < b.num * (a.den : Int)

/-- Value-level equality on fractions. -/
def feq (a b : Frac) : Bool := a.num * (b.den : Int) = b.num * (a.den : Int)

/-- Absolute value of a fraction. -/
def fabs (a : Frac) : Frac := ⟨(a.num.natAbs : Int), a.den, a.den_ne⟩

/-- Minimum of two fractions (returns the first argument on ties, like
Python's min). -/
def fmin (a b : Frac) : Frac := if fle a b then a else b

/-- Maximum of two fractions (returns the first argument on ties, like
Python's max). -/
def fmax (a b : Frac) : Frac := if fle b a then a else b

theorem fle_total (a b : Frac) : fle a b = true ∨ fle b a = true := by
  simp only [fle, decide_eq_true_eq]
  omega

theorem fle_refl (a : Frac) : fle a a = true := by
  simp [fle]

theorem fle_trans {a b c : Frac} (h1 : fle a b = true) (h2 : fle b c = true) :
    fle a c = true := by
  simp only [fle, decide_eq_true_eq] at *
  have hb : (0 : Int) < (b.den : Int) := by
    exact_mod_cast Nat.pos_of_ne_zero b.den_ne
  have ha : (0 : Int) < (a.den : Int) := by
    exact_mod_cast Nat.pos_of_ne_zero a.den_ne
  have hc : (0 : Int) < (c.den : Int) := by
    exact_mod_cast Nat.pos_of_ne_zero c.den_ne
  nlinarith [mul_le_mul_of_nonneg_right h1 (le_of_lt hc),
    mul_le_mul_of_nonneg_right h2 (le_of_lt ha)]

theorem flt_iff_not_fle (a b : Frac) : flt a b = true ↔ ¬ fle b a = true := by
  simp only [flt, fle, decide_eq_true_eq]
  omega

theorem feq_iff (a b : Frac) : feq a b = true ↔ fle a b = true ∧ fle b a = true := by
  simp only [feq, fle, decide_eq_true_eq]
  omega

/-! ### A stable insertion sort (the model of Python's sorted and of
np.argsort's behavior on the short arrays of this application) -/

/-- Insert x into a sorted list, before the first element y with
le x y, i.e. after every strictly smaller element and before equals
encountered from its insertion point; combined with sSort below this is
the standard stable insertion sort. -/
def sInsert (le : α → α → Bool) (x : α) : List α → List α
  | [] => [x]
  | y :: ys => if le x y then x :: y :: ys else y :: sInsert le x ys

/-- Stable sort by the boolean relation le (a model of Python's sorted,
which is stable). -/
def sSort (le : α → α → Bool) : List α → List α
  | [] => []
  | x :: xs => sInsert le x (sSort le xs)

theorem sInsert_perm (le : α → α → Bool) (x : α) (l : List α) :
    List.Perm (sInsert le x l) (x :: l) := by
  induction l with
  | nil => simp [sInsert]
  | cons y ys ih =>
    by_cases h : le x y
    · simp [sInsert, h]
    · simp only [sInsert, h, Bool.false_eq_true, not_false_eq_true, if_false]
      exact List.Perm.trans (List.Perm.cons y ih) (List.Perm.swap x y ys)

theorem sSort_perm (le : α → α → Bool) (l : List α) :
    List.Perm (sSort le l) l := by
  induction l with
  | nil => simp [sSort]
  | cons x xs ih =>
    exact List.Perm.trans (sInsert_perm le x (sSort le xs)) (List.Perm.cons x ih)

theorem sInsert_pairwise (le : α → α → Bool)
    (htot : ∀ a b, le a b = true ∨ le b a = true)
    (htr : ∀ a b c, le a b = true → le b c = true → le a c = true)
    (x : α) (l : List α) (hl : List.Pairwise (fun a b => le a b = true) l) :
    List.Pairwise (fun a b => le a b = true) (sInsert le x l) := by
  induction l with
  | nil => simp [sInsert]
  | cons y ys ih =>
    obtain ⟨hy, hys⟩ := List.pairwise_cons.mp hl
    by_cases h : le x y
    · simp only [sInsert, h, if_true]
      refine List.Pairwise.cons ?_ (List.Pairwise.cons hy hys)
      intro b hb
      rcases List.mem_cons.mp hb with rfl | hb'
      · exact h
      · exact htr _ _ _ h (hy _ hb')
    · simp only [sInsert, h, Bool.false_eq_true, not_false_eq_true, if_false]
      refine List.Pairwise.cons ?_ (ih hys)
      intro b hb
      have hmem := (sInsert_perm le x ys).mem_iff.mp hb
      rcases List.mem_cons.mp hmem with heq | hmem'
      · exact heq ▸ Or.resolve_left (htot x y) h
      · exact hy _ hmem'

theorem sSort_pairwise (le : α → α → Bool)
    (htot : ∀ a b, le a b = true ∨ le b a = true)
    (htr : ∀ a b c, le a b = true → le b c = true → le a c = true)
    (l : List α) :
    List.Pairwise (fun a b => le a b = true) (sSort le l) := by
  induction l with
  | nil => simp [sSort]
  | cons x xs ih => exact sInsert_pairwise le htot htr x (sSort le xs) ih

theorem sSort_length (le : α → α → Bool) (l : List α) :
    (sSort le l).length = l.length :=
  (sSort_perm le l).length_eq

/-! ### Value semantics of fractions -/

/-- The rational value of a fraction. -/
def Frac.val (a : Frac) : ℚ := (a.num : ℚ) / (a.den : ℚ)

theorem Frac.den_posQ (a : Frac) : (0 : ℚ) < (a.den : ℚ) := by
  exact_mod_cast Nat.pos_of_ne_zero a.den_ne

theorem fle_iff_val (a b : Frac) : fle a b = true ↔ a.val ≤ b.val := by
  simp only [fle, decide_eq_true_eq, Frac.val]
  rw [div_le_div_iff a.den_posQ b.den_posQ]
  constructor
  · intro h; exact_mod_cast h
  · intro h; exact_mod_cast h

theorem flt_iff_val (a b : Frac) : flt a b = true ↔ a.val < b.val := by
  simp only [flt, decide_eq_true_eq, Frac.val]
  rw [div_lt_div_iff a.den_posQ b.den_posQ]
  constructor
  · intro h; exact_mod_cast h
  · intro h; exact_mod_cast h

theorem feq_iff_val (a b : Frac) : feq a b = true ↔ a.val = b.val := by
  simp only [feq, decide_eq_true_eq, Frac.val]
  rw [div_eq_div_iff (ne_of_gt a.den_posQ) (ne_of_gt b.den_posQ)]
  constructor
  · intro h; exact_mod_cast h
  · intro h; exact_mod_cast h

/-! ### The Retriever: DocumentEntry.similarity_search
(backend/app/services/document_registry.py) -/

/-- A vectorized passage, as stored by the registry (class Chunk of
document_registry.py; the field named section there is sectionTitle here
because section is a Lean keyword). -/
structure Chunk where
  id : Str
  text : Str
  page : Nat
  sectionTitle : Str
  order : Nat
  embedding : List Frac
deriving DecidableEq

/-- Dot product of two embedding vectors (the per-chunk entries of
embeddings @ query_embedding). -/
def dotF (a b : List Frac) : Frac := (List.zipWith fmul a b).foldr fadd f0

/-- The epsilon 1e-10 substituted for a zero norm product. -/
def epsFrac : Frac := ⟨1, 10 ^ 10, by positivity⟩

/-- np.where(norms == 0, 1e-10, norms) applied to one norm product:
a zero value is replaced by 1e-10. -/
def safeDenom (d : Frac) : Frac := if d.num = 0 then epsFrac else d

/-- The similarity scores (embeddings @ query_embedding) / np.where(...):
cosine similarities of every chunk against the query.  normF is the
np.linalg.norm collaborator (the Euclidean norm of a vector). -/
def cosineSimilarities (normF : List Frac → Frac) (chunks : List Chunk)
    (q : List Frac) : List Frac :=
  chunks.map (fun c =>
    fdiv (dotF c.embedding q) (safeDenom (fmul (normF c.embedding) (normF q))))

/-- Comparison used to model np.argsort(similarities): indices ordered by
score first and by index on equal scores.  This is the stable ascending
argsort that numpy's default sort performs on arrays of fewer than 16
elements, where it runs an insertion sort; for longer arrays numpy's
quicksort fixes no order among equal scores, so only properties that are
invariant under the tie order (length, membership, dedup, score
dominance) transfer to the program unconditionally, and tie-order
statements hold only in the under-16 regime. -/
def lexLe (s : List Frac) (i j : Nat) : Bool :=
  flt (s.getD i f0) (s.getD j f0) ||
    (feq (s.getD i f0) (s.getD j f0) && decide (i ≤ j))

/-- np.argsort(similarities): the index list sorted by ascending score. -/
def argsortAsc (s : List Frac) : List Nat :=
  sSort (lexLe s) (List.range s.length)

/-- np.argsort(similarities)[::-1][:top_k]: the anchor indices, best
score first. -/
def anchorIndices (s : List Frac) (topK : Nat) : List Nat :=
  ((argsortAsc s).reverse).take topK

/-- One iteration of the anchor loop of similarity_search: skip an
already-emitted anchor, otherwise emit it and then the first
not-yet-emitted chunk on the same page. -/
def selStep (chunks : List Chunk) (st : List Chunk × List Str) (idx : Nat) :
    List Chunk × List Str :=
  match chunks.get? idx with
  | none => st
  | some anchor =>
    if st.2.contains anchor.id then st
    else
      let st1 := (st.1 ++ [anchor], anchor.id :: st.2)
      match chunks.find? (fun c => c.page == anchor.page && !(st1.2.contains c.id)) with
      | none => st1
      | some nb => (st1.1 ++ [nb], nb.id :: st1.2)

/-- The selection loop of similarity_search over the ranked anchor
indices. -/
def selectWithNeighbors (chunks : List Chunk) (idxs : List Nat) : List Chunk :=
  (idxs.foldl (selStep chunks) ([], [])).1

/-- DocumentEntry.similarity_search: empty chunk lists return [],
otherwise cosine-rank the chunks and run the anchor/neighbor selection. -/
def similaritySearch (normF : List Frac → Frac) (chunks : List Chunk)
    (q : List Frac) (topK : Nat) : List Chunk :=
  if chunks = [] then []
  else selectWithNeighbors chunks
    (anchorIndices (cosineSimilarities normF chunks q) topK)

/-! #### Order lemmas for the argsort model -/

theorem lexLe_total (s : List Frac) (i j : Nat) :
    lexLe s i j = true ∨ lexLe s j i = true := by
  simp only [lexLe, Bool.or_eq_true, Bool.and_eq_true, decide_eq_true_eq,
    flt_iff_val, feq_iff_val]
  rcases lt_trichotomy ((s.getD i f0).val) ((s.getD j f0).val) with h | h | h
  · exact Or.inl (Or.inl h)
  · rcases Nat.le_total i j with hij | hij
    · exact Or.inl (Or.inr ⟨h, hij⟩)
    · exact Or.inr (Or.inr ⟨h.symm, hij⟩)
  · exact Or.inr (Or.inl h)

theorem lexLe_trans (s : List Frac) (i j k : Nat)
    (h1 : lexLe s i j = true) (h2 : lexLe s j k = true) :
    lexLe s i k = true := by
  simp only [lexLe, Bool.or_eq_true, Bool.and_eq_true, decide_eq_true_eq,
    flt_iff_val, feq_iff_val] at *
  rcases h1 with h1 | ⟨h1e, h1i⟩ <;> rcases h2 with h2 | ⟨h2e, h2i⟩
  · exact Or.inl (lt_trans h1 h2)
  · exact Or.inl (lt_of_lt_of_le h1 (le_of_eq h2e))
  · exact Or.inl (lt_of_le_of_lt (le_of_eq h1e) h2)
  · exact Or.inr ⟨h1e.trans h2e, le_trans h1i h2i⟩

theorem lexLe_antisymm (s : List Frac) (i j : Nat)
    (h1 : lexLe s i j = true) (h2 : lexLe s j i = true) : i = j := by
  simp only [lexLe, Bool.or_eq_true, Bool.and_eq_true, decide_eq_true_eq,
    flt_iff_val, feq_iff_val] at *
  rcases h1 with h1 | ⟨h1e, h1i⟩ <;> rcases h2 with h2 | ⟨h2e, h2i⟩
  · exact absurd h2 (not_lt_of_lt h1)
  · exact absurd h1 (by rw [h2e]; exact lt_irrefl _)
  · exact absurd h2 (by rw [h1e]; exact lt_irrefl _)
  · omega

theorem argsortAsc_perm (s : List Frac) :
    List.Perm (argsortAsc s) (List.range s.length) :=
  sSort_perm _ _

theorem argsortAsc_nodup (s : List Frac) : (argsortAsc s).Nodup :=
  ((argsortAsc_perm s).symm.nodup (List.nodup_range s.length))

theorem argsortAsc_pairwise (s : List Frac) :
    List.Pairwise (fun a b => lexLe s a b = true) (argsortAsc s) :=
  sSort_pairwise _ (lexLe_total s) (fun a b c => lexLe_trans s a b c) _

theorem argsortAsc_mem (s : List Frac) (i : Nat) :
    i ∈ argsortAsc s ↔ i < s.length := by
  rw [(argsortAsc_perm s).mem_iff, List.mem_range]

/-- In a Nodup list that is pairwise-ordered by R, an element that R does
not allow after another one sits strictly earlier. -/
theorem indexOf_lt_of_pairwise {l : List Nat} {R : Nat → Nat → Prop}
    (hnd : l.Nodup) (hp : List.Pairwise R l) {i j : Nat}
    (hi : i ∈ l) (hj : j ∈ l) (hne : i ≠ j) (hnr : ¬ R j i) :
    List.indexOf i l < List.indexOf j l := by
  have hil : List.indexOf i l < l.length := List.indexOf_lt_length.mpr hi
  have hjl : List.indexOf j l < l.length := List.indexOf_lt_length.mpr hj
  rcases lt_trichotomy (List.indexOf i l) (List.indexOf j l) with h | h | h
  · exact h
  · exfalso
    apply hne
    have := (hnd.get_inj_iff (i := ⟨List.indexOf i l, hil⟩)
      (j := ⟨List.indexOf j l, hjl⟩)).mpr (by exact Fin.ext h)
    have hgi : l.get ⟨List.indexOf i l, hil⟩ = i := List.indexOf_get hil
    have hgj : l.get ⟨List.indexOf j l, hjl⟩ = j := List.indexOf_get hjl
    rw [hgi, hgj] at this
    exact this
  · exfalso
    apply hnr
    have := List.pairwise_iff_get.mp hp ⟨List.indexOf j l, hjl⟩
      ⟨List.indexOf i l, hil⟩ h
    have hgi : l.get ⟨List.indexOf i l, hil⟩ = i := List.indexOf_get hil
    have hgj : l.get ⟨List.indexOf j l, hjl⟩ = j := List.indexOf_get hjl
    rw [hgi, hgj] at this
    exact this

/-- Membership in a take-slice of a Nodup list is position below the
cut. -/
theorem mem_take_iff_indexOf_lt {l : List Nat} (hnd : l.Nodup) {a : Nat}
    (ha : a ∈ l) (k : Nat) : a ∈ l.take k ↔ List.indexOf a l < k := by
  induction l generalizing k with
  | nil => simp at ha
  | cons x xs ih =>
    cases k with
    | zero => simp
    | succ k' =>
      rcases List.mem_cons.mp ha with rfl | ha'
      · simp [List.indexOf_cons_self]
      · have hne : x ≠ a := by
          rintro rfl
          exact (List.nodup_cons.mp hnd).1 ha'
        rw [List.take_succ_cons, List.mem_cons,
          List.indexOf_cons_ne _ (by exact hne)]
        constructor
        · rintro (rfl | h)
          · exact absurd rfl hne
          · have := (ih (List.nodup_cons.mp hnd).2 ha' (k := k')).mp h
            omega
        · intro h
          refine Or.inr ((ih (List.nodup_cons.mp hnd).2 ha' (k := k')).mpr ?_)
          omega

/-! #### Invariants of the selection loop -/

/-- Invariant of the anchor/neighbor loop: emitted ids are pairwise
distinct and the seen set holds exactly the emitted ids. -/
def selInv (st : List Chunk × List Str) : Prop :=
  (st.1.map Chunk.id).Nodup ∧ ∀ x, x ∈ st.1.map Chunk.id ↔ x ∈ st.2

theorem mem_contains_iff (l : List Str) (a : Str) :
    l.contains a = true ↔ a ∈ l := by simp

theorem push_inv (c : Chunk) (st : List Chunk × List Str) (h : selInv st)
    (hfresh : c.id ∉ st.2) :
    selInv (st.1 ++ [c], c.id :: st.2) := by
  obtain ⟨hnd, hiff⟩ := h
  have hnotin : c.id ∉ st.1.map Chunk.id := fun hm => hfresh ((hiff _).mp hm)
  constructor
  · rw [List.map_append]
    refine List.nodup_append.mpr ⟨hnd, List.nodup_singleton _, ?_⟩
    intro x hx hx'
    rw [show (List.map Chunk.id [c]) = [c.id] from rfl, List.mem_singleton] at hx'
    exact hnotin (hx' ▸ hx)
  · intro x
    rw [List.map_append, List.mem_append,
      show (List.map Chunk.id [c]) = [c.id] from rfl, List.mem_singleton,
      List.mem_cons, hiff x]
    tauto

theorem selStep_inv (chunks : List Chunk) (st : List Chunk × List Str)
    (idx : Nat) (h : selInv st) :
    selInv (selStep chunks st idx) ∧
      (selStep chunks st idx).1.length ≤ st.1.length + 2 := by
  cases hg : chunks.get? idx with
  | none =>
    have he : selStep chunks st idx = st := by
      unfold selStep; rw [hg]
    rw [he]; exact ⟨h, by omega⟩
  | some anchor =>
    by_cases hc : st.2.contains anchor.id
    · have he : selStep chunks st idx = st := by
        unfold selStep; rw [hg]; simp only [hc, if_true]
      rw [he]; exact ⟨h, by omega⟩
    · have hfresh : anchor.id ∉ st.2 := fun hm => hc ((mem_contains_iff _ _).mpr hm)
      have hst1 : selInv (st.1 ++ [anchor], anchor.id :: st.2) :=
        push_inv anchor st h hfresh
      cases hf : chunks.find?
          (fun c => c.page == anchor.page && !((anchor.id :: st.2).contains c.id)) with
      | none =>
        have he : selStep chunks st idx = (st.1 ++ [anchor], anchor.id :: st.2) := by
          unfold selStep
          rw [hg]
          simp only [hc, Bool.false_eq_true, not_false_eq_true, if_false]
          rw [hf]
        rw [he]
        refine ⟨hst1, ?_⟩
        simp only [List.length_append, List.length_singleton]
        omega
      | some nb =>
        have hnb := List.find?_some hf
        simp only [Bool.and_eq_true, Bool.not_eq_true'] at hnb
        have hnb_fresh : nb.id ∉ anchor.id :: st.2 := by
          intro hm
          have := (mem_contains_iff (anchor.id :: st.2) nb.id).mpr hm
          rw [hnb.2] at this
          exact Bool.false_ne_true this
        have he : selStep chunks st idx =
            ((st.1 ++ [anchor]) ++ [nb], nb.id :: anchor.id :: st.2) := by
          unfold selStep
          rw [hg]
          simp only [hc, Bool.false_eq_true, not_false_eq_true, if_false]
          rw [hf]
        rw [he]
        refine ⟨push_inv nb (st.1 ++ [anchor], anchor.id :: st.2) hst1 hnb_fresh, ?_⟩
        simp only [List.length_append, List.length_singleton]
        omega

theorem foldl_selStep_inv (chunks : List Chunk) (idxs : List Nat)
    (st : List Chunk × List Str) (h : selInv st) :
    selInv (idxs.foldl (selStep chunks) st) ∧
      (idxs.foldl (selStep chunks) st).1.length ≤ st.1.length + 2 * idxs.length := by
  induction idxs generalizing st with
  | nil => exact ⟨h, by simp⟩
  | cons a as ih =>
    obtain ⟨h1, h2⟩ := selStep_inv chunks st a h
    obtain ⟨h3, h4⟩ := ih (selStep chunks st a) h1
    rw [List.foldl_cons]
    refine ⟨h3, ?_⟩
    simp only [List.length_cons] at *
    omega

theorem selectWithNeighbors_length (chunks : List Chunk) (idxs : List Nat) :
    (selectWithNeighbors chunks idxs).length ≤ 2 * idxs.length := by
  have := (foldl_selStep_inv chunks idxs ([], []) ⟨List.nodup_nil, by simp⟩).2
  simpa [selectWithNeighbors] using this

theorem selectWithNeighbors_nodup (chunks : List Chunk) (idxs : List Nat) :
    ((selectWithNeighbors chunks idxs).map Chunk.id).Nodup :=
  (foldl_selStep_inv chunks idxs ([], []) ⟨List.nodup_nil, by simp⟩).1.1

/-! #### Theorems for the retriever claims -/

/-- C1.  For every document and requested top_k = K, similarity_search
returns at most 2K chunks with pairwise distinct ids, an empty chunk list
gives an empty result, and every anchor index carries a similarity score
at least as large as that of every index not chosen as an anchor. -/
theorem retriever_bounds (normF : List Frac → Frac) (chunks : List Chunk)
    (q : List Frac) (K : Nat) :
    (similaritySearch normF chunks q K).length ≤ 2 * K
    ∧ ((similaritySearch normF chunks q K).map Chunk.id).Nodup
    ∧ (chunks = [] → similaritySearch normF chunks q K = [])
    ∧ (∀ i ∈ anchorIndices (cosineSimilarities normF chunks q) K,
        ∀ j, j < (cosineSimilarities normF chunks q).length →
          j ∉ anchorIndices (cosineSimilarities normF chunks q) K →
          fle ((cosineSimilarities normF chunks q).getD j f0)
            ((cosineSimilarities normF chunks q).getD i f0) = true) := by
  set s := cosineSimilarities normF chunks q with hs
  refine ⟨?_, ?_, ?_, ?_⟩
  · by_cases hc : chunks = []
    · simp [similaritySearch, hc]
    · have h1 := selectWithNeighbors_length chunks (anchorIndices s K)
      have h2 : (anchorIndices s K).length ≤ K := by
        simp only [anchorIndices, List.length_take]
        omega
      simp only [similaritySearch, hc, if_false, ← hs]
      omega
  · by_cases hc : chunks = []
    · simp [similaritySearch, hc]
    · simp only [similaritySearch, hc, if_false, ← hs]
      exact selectWithNeighbors_nodup chunks (anchorIndices s K)
  · intro hc; simp [similaritySearch, hc]
  · intro i hi j hj hjn
    have hrev_nd : ((argsortAsc s).reverse).Nodup :=
      List.nodup_reverse.mpr (argsortAsc_nodup s)
    have hrev_pw : List.Pairwise (fun a b => lexLe s b a = true)
        ((argsortAsc s).reverse) :=
      List.pairwise_reverse.mpr (argsortAsc_pairwise s)
    have hi_rev : i ∈ (argsortAsc s).reverse :=
      List.take_subset K _ hi
    have hj_rev : j ∈ (argsortAsc s).reverse :=
      List.mem_reverse.mpr ((argsortAsc_mem s j).mpr hj)
    have hij : i ≠ j := by
      rintro rfl; exact hjn hi
    have hidx_i : List.indexOf i ((argsortAsc s).reverse) < K :=
      (mem_take_iff_indexOf_lt hrev_nd hi_rev K).mp hi
    have hidx_j : ¬ List.indexOf j ((argsortAsc s).reverse) < K := by
      intro hlt
      exact hjn ((mem_take_iff_indexOf_lt hrev_nd hj_rev K).mpr hlt)
    have hpos : List.indexOf i ((argsortAsc s).reverse) <
        List.indexOf j ((argsortAsc s).reverse) := by omega
    have hil : List.indexOf i ((argsortAsc s).reverse) <
        ((argsortAsc s).reverse).length := List.indexOf_lt_length.mpr hi_rev
    have hjl : List.indexOf j ((argsortAsc s).reverse) <
        ((argsortAsc s).reverse).length := List.indexOf_lt_length.mpr hj_rev
    have hrel := List.pairwise_iff_get.mp hrev_pw
      ⟨_, hil⟩ ⟨_, hjl⟩ hpos
    rw [List.indexOf_get hil, List.indexOf_get hjl] at hrel
    simp only [lexLe, Bool.or_eq_true, Bool.and_eq_true, decide_eq_true_eq] at hrel
    rcases hrel with hlt | ⟨heq, _⟩
    · exact (fle_iff_val _ _).mpr (le_of_lt ((flt_iff_val _ _).mp hlt))
    · exact (fle_iff_val _ _).mpr (le_of_eq ((feq_iff_val _ _).mp heq))

theorem fdiv_val (a b : Frac) (h : b.num ≠ 0) : (fdiv a b).val = a.val / b.val := by
  have hbQ : ((b.num : ℚ)) ≠ 0 := Int.cast_ne_zero.mpr h
  have haD := a.den_posQ
  have hbD := b.den_posQ
  unfold fdiv
  rw [dif_neg h]
  unfold Frac.val
  simp only []
  rcases lt_or_ge b.num 0 with hneg | hpos
  · have habs : ((b.num.natAbs : ℕ) : ℚ) = -(b.num : ℚ) := by
      rw [Int.cast_natAbs, abs_of_neg hneg]
      push_cast
      ring
    rw [if_pos hneg]
    push_cast [habs]
    field_simp
  · have habs : ((b.num.natAbs : ℕ) : ℚ) = (b.num : ℚ) := by
      rw [Int.cast_natAbs, abs_of_nonneg hpos]
    rw [if_neg (not_lt.mpr hpos)]
    push_cast [habs]
    field_simp

theorem safeDenom_num_ne (d : Frac) : (safeDenom d).num ≠ 0 := by
  unfold safeDenom
  by_cases h : d.num = 0
  · rw [if_pos h]; exact one_ne_zero
  · rw [if_neg h]; exact h

theorem safeDenom_val_ne (d : Frac) : (safeDenom d).val ≠ 0 := by
  unfold Frac.val
  exact div_ne_zero (Int.cast_ne_zero.mpr (safeDenom_num_ne d))
    (ne_of_gt (safeDenom d).den_posQ)

/-- C7.  The cosine computation replaces a zero norm product by the
epsilon 1e-10, so every score in cosineSimilarities is an actual division
by a nonzero denominator and every score is a (finite) fraction value. -/
theorem cosine_no_div_by_zero (normF : List Frac → Frac) (chunks : List Chunk)
    (q : List Frac) :
    (∀ d : Frac, d.num = 0 → safeDenom d = epsFrac)
    ∧ (∀ d : Frac, (safeDenom d).num ≠ 0)
    ∧ (∀ c ∈ chunks,
        fdiv (dotF c.embedding q) (safeDenom (fmul (normF c.embedding) (normF q)))
          ∈ cosineSimilarities normF chunks q
        ∧ (safeDenom (fmul (normF c.embedding) (normF q))).val ≠ 0
        ∧ (fdiv (dotF c.embedding q)
            (safeDenom (fmul (normF c.embedding) (normF q)))).val
          = (dotF c.embedding q).val
            / (safeDenom (fmul (normF c.embedding) (normF q))).val) := by
  refine ⟨?_, safeDenom_num_ne, ?_⟩
  · intro d hd
    unfold safeDenom
    rw [if_pos hd]
  · intro c hc
    refine ⟨?_, safeDenom_val_ne _, ?_⟩
    · exact List.mem_map.mpr ⟨c, hc, rfl⟩
    · exact fdiv_val _ _ (safeDenom_num_ne _)

/-- Input data for the C7 witness: a chunk whose embedding is the zero
vector, with the norm collaborator modelled as a dot-product-based
function that sends it to the zero value. -/
def w7Norm : List Frac → Frac := fun v => dotF v v

def w7C : Chunk := ⟨['z'], [], 1, [], 0, [f0]⟩

def w7Q : List Frac := [f0]

theorem cosine_no_div_by_zero_witness :
    safeDenom (fmul (w7Norm w7C.embedding) (w7Norm w7Q)) = epsFrac
    ∧ (fdiv (dotF w7C.embedding w7Q)
        (safeDenom (fmul (w7Norm w7C.embedding) (w7Norm w7Q)))).val
      = (dotF w7C.embedding w7Q).val
        / (safeDenom (fmul (w7Norm w7C.embedding) (w7Norm w7Q))).val
    ∧ (safeDenom (fmul (w7Norm w7C.embedding) (w7Norm w7Q))).val ≠ 0 := by
  obtain ⟨h1, _, h3⟩ := cosine_no_div_by_zero w7Norm [w7C] w7Q
  obtain ⟨_, hne, hval⟩ := h3 w7C (by decide)
  exact ⟨h1 _ (by decide), hval, hne⟩

/-- Input data for the C1 witness: two chunks with distinct scores. -/
def w1Norm : List Frac → Frac := fun _ => Frac.ofInt 1

def w1A : Chunk := ⟨['a'], ['t','a'], 1, ['s'], 0, [Frac.ofInt 2]⟩

def w1B : Chunk := ⟨['b'], ['t','b'], 2, ['s'], 1, [Frac.ofInt 1]⟩

def w1Q : List Frac := [Frac.ofInt 1]

theorem retriever_bounds_witness :
    (similaritySearch w1Norm [w1A, w1B] w1Q 1).length ≤ 2 * 1
    ∧ ((similaritySearch w1Norm [w1A, w1B] w1Q 1).map Chunk.id).Nodup
    ∧ similaritySearch w1Norm [] w1Q 1 = []
    ∧ fle ((cosineSimilarities w1Norm [w1A, w1B] w1Q).getD 1 f0)
        ((cosineSimilarities w1Norm [w1A, w1B] w1Q).getD 0 f0) = true := by
  obtain ⟨h1, h2, _, h4⟩ := retriever_bounds w1Norm [w1A, w1B] w1Q 1
  exact ⟨h1, h2, (retriever_bounds w1Norm [] w1Q 1).2.2.1 rfl,
    h4 0 (by decide) 1 (by decide) (by decide)⟩

/-- Input data for the C2 counterexample: two chunks with identical
embeddings (hence identical scores) on different pages. -/
def c2Norm : List Frac → Frac := fun _ => Frac.ofInt 1

def c2A : Chunk := ⟨['a'], ['t','a'], 1, ['s'], 0, [Frac.ofInt 1]⟩

def c2B : Chunk := ⟨['b'], ['t','b'], 2, ['s'], 1, [Frac.ofInt 1]⟩

def c2Q : List Frac := [Frac.ofInt 1]

/-- C2 counterexample.  Two chunks have equal cosine similarity to the
query, and with top_k = 1 the retriever ranks and selects the chunk with
the larger original order index, not the smaller one: the result is
exactly the second chunk, and the equally-similar first chunk (order 0)
is not returned at all. -/
theorem tie_break_counterexample :
    feq ((cosineSimilarities c2Norm [c2A, c2B] c2Q).getD 0 f0)
        ((cosineSimilarities c2Norm [c2A, c2B] c2Q).getD 1 f0) = true
    ∧ c2A.order < c2B.order
    ∧ similaritySearch c2Norm [c2A, c2B] c2Q 1 = [c2B]
    ∧ c2A ∉ similaritySearch c2Norm [c2A, c2B] c2Q 1 := by decide

/-- C2 (amended).  The claimed ascending-order tie-break is not
implemented, and no deterministic secondary key is guaranteed in
general: np.argsort's default quicksort fixes no tie order for arrays
of 16 or more elements.  In the regime where np.argsort does sort
stably — score arrays of fewer than 16 elements, where it runs an
insertion sort, the regime this embedding's argsortAsc models — the
ascending stable order puts the smaller index first among equal
scores, so after the [::-1] reversal the descending ranking places the
larger index first: among equal-similarity chunks the one with the
larger original index is ranked first, and whenever the smaller index
makes the top_k anchor cut the larger one does too. -/
theorem tie_break_descending (s : List Frac) (K i j : Nat)
    (_hlen : s.length < 16) (hij : i < j)
    (hj : j < s.length) (hfeq : feq (s.getD i f0) (s.getD j f0) = true) :
    List.indexOf j ((argsortAsc s).reverse) <
      List.indexOf i ((argsortAsc s).reverse)
    ∧ (i ∈ anchorIndices s K → j ∈ anchorIndices s K) := by
  have hi : i < s.length := lt_trans hij hj
  have hrev_nd : ((argsortAsc s).reverse).Nodup :=
    List.nodup_reverse.mpr (argsortAsc_nodup s)
  have hrev_pw : List.Pairwise (fun a b => lexLe s b a = true)
      ((argsortAsc s).reverse) :=
    List.pairwise_reverse.mpr (argsortAsc_pairwise s)
  have hi_rev : i ∈ (argsortAsc s).reverse :=
    List.mem_reverse.mpr ((argsortAsc_mem s i).mpr hi)
  have hj_rev : j ∈ (argsortAsc s).reverse :=
    List.mem_reverse.mpr ((argsortAsc_mem s j).mpr hj)
  have hnr : ¬ lexLe s j i = true := by
    have hv : (s.getD i f0).val = (s.getD j f0).val := (feq_iff_val _ _).mp hfeq
    simp only [lexLe, Bool.or_eq_true, Bool.and_eq_true, decide_eq_true_eq,
      flt_iff_val, feq_iff_val]
    rintro (hlt | ⟨_, hle⟩)
    · rw [hv] at hlt
      exact lt_irrefl _ hlt
    · omega
  have hidx : List.indexOf j ((argsortAsc s).reverse) <
      List.indexOf i ((argsortAsc s).reverse) :=
    indexOf_lt_of_pairwise hrev_nd hrev_pw hj_rev hi_rev
      (by omega) (by exact hnr)
  refine ⟨hidx, fun hia => ?_⟩
  have h1 : List.indexOf i ((argsortAsc s).reverse) < K :=
    (mem_take_iff_indexOf_lt hrev_nd hi_rev K).mp hia
  exact (mem_take_iff_indexOf_lt hrev_nd hj_rev K).mpr (by omega)

theorem tie_break_descending_witness :
    List.indexOf 1 ((argsortAsc [Frac.ofInt 1, Frac.ofInt 1]).reverse) <
      List.indexOf 0 ((argsortAsc [Frac.ofInt 1, Frac.ofInt 1]).reverse)
    ∧ (0 ∈ anchorIndices [Frac.ofInt 1, Frac.ofInt 1] 1 →
        1 ∈ anchorIndices [Frac.ofInt 1, Frac.ofInt 1] 1) :=
  tie_break_descending [Frac.ofInt 1, Frac.ofInt 1] 1 0 1
    (by decide) (by decide) (by decide) (by decide)

/-! ### Python string primitives used by the embedded code -/

/-- Python's ASCII whitespace (the characters str.split and str.strip
treat as whitespace in this code base). -/
def isPyWs (c : Char) : Bool :=
  c = ' ' || c = '\t' || c = '\n' || c = '\r' || c = '\x0b' || c = '\x0c'

/-- str.lstrip(). -/
def pyLStrip (s : Str) : Str := s.dropWhile isPyWs

/-- str.rstrip(). -/
def pyRStrip (s : Str) : Str := (s.reverse.dropWhile isPyWs).reverse

/-- str.strip(). -/
def pyStrip (s : Str) : Str := pyRStrip (pyLStrip s)

/-- str.split() with no argument: whitespace-separated fields, empties
dropped. -/
def pySplitWs (s : Str) : List Str :=
  (s.splitOnP isPyWs).filter (· ≠ [])

/-- " ".join(parts). -/
def joinSpace (parts : List Str) : Str := List.intercalate [' '] parts

/-- " ".join(text.split()): collapse every whitespace run to one space and
drop outer whitespace. -/
def collapseWs (s : Str) : Str := joinSpace (pySplitWs s)

/-- str.lower() (ASCII). -/
def pyLower (s : Str) : Str := s.map Char.toLower

/-- str.upper() (ASCII). -/
def pyUpper (s : Str) : Str := s.map Char.toUpper

/-- str.strip(chars): strip any of the given characters from both ends. -/
def stripChars (set : Str) (s : Str) : Str :=
  ((s.dropWhile (set.contains ·)).reverse.dropWhile (set.contains ·)).reverse

/-- Helper of pySplitlines carrying the current line (reversed). -/
def splitLinesAux : Str → Str → List Str
  | [], acc => if acc = [] then [] else [acc.reverse]
  | '\r' :: '\n' :: rest, acc => acc.reverse :: splitLinesAux rest []
  | '\r' :: rest, acc => acc.reverse :: splitLinesAux rest []
  | '\n' :: rest, acc => acc.reverse :: splitLinesAux rest []
  | c :: rest, acc => splitLinesAux rest (c :: acc)

/-- str.splitlines() for the line boundaries occurring in extracted PDF
text (\n, \r, \r\n). -/
def pySplitlines (s : Str) : List Str := splitLinesAux s []

/-- Python's substring test (needle in hay). -/
def hasSub (needle : Str) : Str → Bool
  | [] => needle.isEmpty
  | c :: rest => needle.isPrefixOf (c :: rest) || hasSub needle rest

/-- Helper of pyTitle tracking whether the previous character was
alphabetic. -/
def pyTitleAux : Bool → Str → Str
  | _, [] => []
  | prev, c :: rest =>
    (if c.isAlpha then (if prev then c.toLower else c.toUpper) else c) ::
      pyTitleAux c.isAlpha rest

/-- str.title() (ASCII): the first letter of every alphabetic run is
uppercased, the rest lowercased. -/
def pyTitle (s : Str) : Str := pyTitleAux false s

/-- int() on a string of decimal digits. -/
def digitsToNat (s : Str) : Nat :=
  s.foldl (fun acc c => acc * 10 + (c.toNat - 48)) 0

/-! ### The Chunker: load_pdf_chunks (backend/app/services/pdf_loader.py)

The pypdf page-text extraction, the langchain splitter and the uuid4
generator are collaborators: they enter as the pages list, the split
function and the ids stream. -/

/-- One chunk of text tied to a source page and section
(pdf_loader.PageChunk). -/
structure PageChunk where
  id : Str
  text : Str
  page : Nat
  sectionTitle : Str
  order : Nat
deriving DecidableEq

/-- normalize_title: collapse whitespace, strip, and title-case. -/
def normalizeTitle (title : Str) : Str := pyTitle (collapseWs title)

/-- infer_section_title: among the first five non-empty stripped lines,
pick the first that is at most 80 characters, has alphabetic share above
one half and is fully upper-case; otherwise the first non-empty line. -/
def inferSectionTitle (pageText : Str) : Str :=
  let lines := ((pySplitlines pageText).map pyStrip).filter (· ≠ [])
  match lines with
  | [] => ('U' :: 'n' :: 'k' :: 'n' :: 'o' :: 'w' :: 'n' :: ' ' :: 'S' :: 'e' :: 'c' :: 't' :: 'i' :: 'o' :: 'n' :: [])
  | l0 :: _ =>
    match (lines.take 5).find? (fun line =>
        line.length ≤ 80
          && decide (2 * (line.filter Char.isAlpha).length > line.length)
          && pyUpper line == line) with
    | some line => normalizeTitle line
    | none => normalizeTitle l0

/-- The inner loop of load_pdf_chunks over the split chunks of one page:
each chunk gets the next fresh id and the running order index. -/
def loadPageChunks (ids : Nat → Str) (pageIndex : Nat) (sec : Str)
    (texts : List Str) (acc : List PageChunk) : List PageChunk :=
  texts.foldl (fun acc2 t =>
    acc2 ++ [{ id := ids acc2.length, text := t, page := pageIndex,
               sectionTitle := sec, order := acc2.length }]) acc

/-- load_pdf_chunks: per non-empty page, infer the section title, split
the stripped text and emit chunks with a document-wide increasing order
index; pages is the per-page extracted raw text, split the langchain
splitter, ids the uuid4 stream (indexed by how many ids were drawn so
far). -/
def loadPdfChunks (pages : List Str) (split : Str → List Str)
    (ids : Nat → Str) : List PageChunk × Nat :=
  ((pages.enum).foldl (fun acc pi =>
    let stripped := pyStrip pi.2
    if stripped = [] then acc
    else loadPageChunks ids (pi.1 + 1) (inferSectionTitle stripped)
      (split stripped) acc) [], pages.length)

/-- The id-independent shape of a chunk: text, page, section title and
order index. -/
def chunkShape (c : PageChunk) : Str × Nat × Str × Nat :=
  (c.text, c.page, c.sectionTitle, c.order)

theorem loadPageChunks_shape (ids1 ids2 : Nat → Str) (pageIndex : Nat)
    (sec : Str) (texts : List Str) (acc1 acc2 : List PageChunk)
    (h : acc1.map chunkShape = acc2.map chunkShape) :
    (loadPageChunks ids1 pageIndex sec texts acc1).map chunkShape
      = (loadPageChunks ids2 pageIndex sec texts acc2).map chunkShape := by
  induction texts generalizing acc1 acc2 with
  | nil => exact h
  | cons t ts ih =>
    have hlen : acc1.length = acc2.length := by
      have := congrArg List.length h
      simpa using this
    refine ih _ _ ?_
    simp only [List.map_append, h, hlen, List.map_cons, List.map_nil, chunkShape]

theorem loadPdfChunks_shape (pages : List Str) (split : Str → List Str)
    (ids1 ids2 : Nat → Str) :
    ((loadPdfChunks pages split ids1).1).map chunkShape
      = ((loadPdfChunks pages split ids2).1).map chunkShape
    ∧ (loadPdfChunks pages split ids1).2 = (loadPdfChunks pages split ids2).2 := by
  refine ⟨?_, rfl⟩
  unfold loadPdfChunks
  simp only []
  generalize (pages.enum) = ps
  have hgen : ∀ (acc1 acc2 : List PageChunk),
      acc1.map chunkShape = acc2.map chunkShape →
      (ps.foldl (fun acc pi =>
        let stripped := pyStrip pi.2
        if stripped = [] then acc
        else loadPageChunks ids1 (pi.1 + 1) (inferSectionTitle stripped)
          (split stripped) acc) acc1).map chunkShape
      = (ps.foldl (fun acc pi =>
        let stripped := pyStrip pi.2
        if stripped = [] then acc
        else loadPageChunks ids2 (pi.1 + 1) (inferSectionTitle stripped)
          (split stripped) acc) acc2).map chunkShape := by
    induction ps with
    | nil => intro acc1 acc2 h; exact h
    | cons p ps' ih =>
      intro acc1 acc2 h
      simp only [List.foldl_cons]
      by_cases hs : pyStrip p.2 = []
      · simp only [hs, if_true]
        exact ih _ _ h
      · simp only [hs, if_false]
        exact ih _ _ (loadPageChunks_shape ids1 ids2 _ _ _ _ _ h)
  exact hgen [] [] rfl

/-- C8 counterexample input: a one-page document, an identity splitter and
two distinct uuid4 streams (one per run). -/
def c8Pages : List Str := [('h' :: 'e' :: 'l' :: 'l' :: 'o' :: [])]

def c8Split : Str → List Str := fun s => [s]

def c8Ids1 : Nat → Str := fun _ => ['a']

def c8Ids2 : Nat → Str := fun _ => ['b']

/-- C8 counterexample.  Chunk ids come from uuid4, so two runs of the
chunker on identical per-page text draw different ids and the resulting
PageChunk sequences differ (in the id field), refuting same-id
determinism across runs. -/
theorem chunker_id_nondeterminism :
    (loadPdfChunks c8Pages c8Split c8Ids1).1 ≠ (loadPdfChunks c8Pages c8Split c8Ids2).1
    ∧ ((loadPdfChunks c8Pages c8Split c8Ids1).1).map PageChunk.id
        ≠ ((loadPdfChunks c8Pages c8Split c8Ids2).1).map PageChunk.id := by
  decide

/-- C8 (amended).  Re-running the chunker on identical per-page raw text
with the same splitter yields sequences of the same length agreeing at
every position in text, page, section title and order index; only the
freshly drawn uuid4 chunk ids may differ between runs. -/
theorem chunker_deterministic_shape (pages : List Str) (split : Str → List Str)
    (ids1 ids2 : Nat → Str) :
    ((loadPdfChunks pages split ids1).1).map chunkShape
      = ((loadPdfChunks pages split ids2).1).map chunkShape
    ∧ ((loadPdfChunks pages split ids1).1).length
      = ((loadPdfChunks pages split ids2).1).length
    ∧ (loadPdfChunks pages split ids1).2 = (loadPdfChunks pages split ids2).2 := by
  obtain ⟨h1, h2⟩ := loadPdfChunks_shape pages split ids1 ids2
  refine ⟨h1, ?_, h2⟩
  have := congrArg List.length h1
  simpa using this

/-! ### Citations of the /ask endpoint: _summarize_excerpt (main.py) -/

/-- Citation metadata for one supporting chunk (schemas.Citation; the
section field is sectionTitle here). -/
structure Citation where
  sectionTitle : Str
  page : Nat
  excerpt : Str
deriving DecidableEq

/-- _summarize_excerpt: collapse whitespace; return as is when at most
220 characters, otherwise the first 217 characters followed by "...". -/
def summarizeExcerpt (text : Str) : Str :=
  let cleaned := collapseWs text
  if cleaned.length ≤ 220 then cleaned
  else cleaned.take 217 ++ ('.' :: '.' :: '.' :: [])

/-- The citation list built by ask_question from the chunks used. -/
def citationsOf (topChunks : List Chunk) : List Citation :=
  topChunks.map (fun c => ⟨c.sectionTitle, c.page, summarizeExcerpt c.text⟩)

/-- C10.  Every citation of an /ask response carries as excerpt the
whitespace-collapsed chunk text when that is at most 220 characters and
otherwise its first 217 characters plus "..."; in both cases the excerpt
length is at most 220. -/
theorem excerpt_bound (topChunks : List Chunk) (c : Chunk) (hc : c ∈ topChunks) :
    (⟨c.sectionTitle, c.page, summarizeExcerpt c.text⟩ : Citation) ∈ citationsOf topChunks
    ∧ summarizeExcerpt c.text
        = (if (collapseWs c.text).length ≤ 220 then collapseWs c.text
           else (collapseWs c.text).take 217 ++ ('.' :: '.' :: '.' :: []))
    ∧ (summarizeExcerpt c.text).length ≤ 220 := by
  refine ⟨List.mem_map.mpr ⟨c, hc, rfl⟩, rfl, ?_⟩
  unfold summarizeExcerpt
  by_cases h : (collapseWs c.text).length ≤ 220
  · simp [h]
  · simp only [h, if_false, List.length_append, List.length_take,
      List.length_cons, List.length_nil]
    omega

/-- C10 witness input: a 221-character chunk text. -/
def w10C : Chunk := ⟨['x'], List.replicate 221 'a', 3, ['s'], 0, []⟩

theorem excerpt_bound_witness :
    (⟨w10C.sectionTitle, w10C.page, summarizeExcerpt w10C.text⟩ : Citation)
        ∈ citationsOf [w10C]
    ∧ summarizeExcerpt w10C.text
        = (if (collapseWs w10C.text).length ≤ 220 then collapseWs w10C.text
           else (collapseWs w10C.text).take 217 ++ ('.' :: '.' :: '.' :: []))
    ∧ (summarizeExcerpt w10C.text).length ≤ 220 :=
  excerpt_bound [w10C] w10C (by decide)

/-! ### A small backtracking regex engine

Executes the concrete patterns of main.py with the re module's semantics:
leftmost match, ordered alternation, greedy and lazy repetition over
character classes, optional groups with rollback of captures, and
case-insensitive literals (all patterns of interest use re.IGNORECASE or
are case-free). -/

/-- One item of a regex sequence. -/
inductive RItem where
  | lit (s : Str)
  | cls (p : Char → Bool) (lo : Nat) (hi : Option Nat) (lzy : Bool)
  | alt (alts : List (List RItem))
  | opt (xs : List RItem) (greedy : Bool)
  | grp (n : Nat) (xs : List RItem)

/-- Group captures collected during a match. -/
abbrev Caps := List (Nat × Str)

/-- Case-insensitive prefix test for literal items. -/
def ciPrefixOf : Str → Str → Bool
  | [], _ => true
  | _ :: _, [] => false
  | a :: as, b :: bs => (a.toLower == b.toLower) && ciPrefixOf as bs

/-- First success over a list of alternatives. -/
def firstSome (f : β → Option α) : List β → Option α
  | [] => none
  | b :: bs =>
    match f b with
    | some r => some r
    | none => firstSome f bs

/-- Candidate repetition counts between lo and n, in the order the re
module explores them: ascending for lazy repetition, descending for
greedy repetition. -/
def countRange (lo n : Nat) (lzy : Bool) : List Nat :=
  if lzy then (List.range (n + 1 - lo)).map (fun k => lo + k)
  else (List.range (n + 1 - lo)).map (fun k => n - k)

/-- The backtracking matcher, in continuation-passing style; fuel bounds
the call depth (which is bounded by the pattern size, so the fuel passed
by reSearch below is always sufficient). -/
def reMatch : Nat → List RItem → Str → Caps →
    (Str → Caps → Option (Str × Caps)) → Option (Str × Caps)
  | 0, _, _, _, _ => none
  | _ + 1, [], cs, caps, k => k cs caps
  | fuel + 1, (RItem.lit s) :: rest, cs, caps, k =>
    if ciPrefixOf s cs then reMatch fuel rest (cs.drop s.length) caps k else none
  | fuel + 1, (RItem.cls p lo hi lzy) :: rest, cs, caps, k =>
    let run := (cs.takeWhile p).length
    let maxN := match hi with | none => run | some h => min run h
    firstSome (fun n => reMatch fuel rest (cs.drop n) caps k) (countRange lo maxN lzy)
  | fuel + 1, (RItem.alt alts) :: rest, cs, caps, k =>
    firstSome (fun a => reMatch fuel (a ++ rest) cs caps k) alts
  | fuel + 1, (RItem.opt xs greedy) :: rest, cs, caps, k =>
    if greedy then
      match reMatch fuel (xs ++ rest) cs caps k with
      | some r => some r
      | none => reMatch fuel rest cs caps k
    else
      match reMatch fuel rest cs caps k with
      | some r => some r
      | none => reMatch fuel (xs ++ rest) cs caps k
  | fuel + 1, (RItem.grp n xs) :: rest, cs, caps, k =>
    reMatch fuel xs cs caps (fun cs2 caps2 =>
      reMatch fuel rest cs2 ((n, cs.take (cs.length - cs2.length)) :: caps2) k)

/-- Fuel that always suffices for the fixed patterns of main.py (call
depth is bounded by the pattern size, not the text length). -/
def reFuel : Nat := 2000

/-- Try a full match of the pattern at the current position. -/
def reMatchHere (items : List RItem) (cs : Str) : Option (Nat × Caps) :=
  match reMatch reFuel items cs [] (fun rest caps => some (rest, caps)) with
  | some (rest, caps) => some (cs.length - rest.length, caps)
  | none => none

/-- re.search semantics: scan start positions left to right and return
(start, length, captures) of the first match. -/
def reSearchAux (items : List RItem) : Nat → Nat → Str → Option (Nat × Nat × Caps)
  | 0, _, _ => none
  | fuel + 1, pos, cs =>
    match reMatchHere items cs with
    | some (len, caps) => some (pos, len, caps)
    | none =>
      match cs with
      | [] => none
      | _ :: t => reSearchAux items fuel (pos + 1) t

def reSearch (items : List RItem) (cs : Str) : Option (Nat × Nat × Caps) :=
  reSearchAux items (cs.length + 1) 0 cs

/-- re.finditer semantics: non-overlapping matches left to right,
resuming after each match end. -/
def reFindIterAux (items : List RItem) : Nat → Nat → Str → List (Nat × Nat × Caps)
  | 0, _, _ => []
  | fuel + 1, pos, cs =>
    match reSearch items cs with
    | none => []
    | some (d, len, caps) =>
      (pos + d, len, caps) ::
        reFindIterAux items fuel (pos + d + max len 1) (cs.drop (d + max len 1))

def reFindIter (items : List RItem) (cs : Str) : List (Nat × Nat × Caps) :=
  reFindIterAux items (cs.length + 1) 0 cs

/-- Look up a capture group by number (None when the group did not
participate in the match). -/
def capGet (caps : Caps) (n : Nat) : Option Str :=
  (caps.find? (fun pr => pr.1 == n)).map (fun pr => pr.2)

/-- All start positions of a plain substring, non-overlapping, left to
right (re.finditer over a literal pattern). -/
def subFindAllAux (target : Str) : Nat → Nat → Str → List Nat
  | 0, _, _ => []
  | fuel + 1, pos, s =>
    match s with
    | [] => []
    | c :: rest =>
      if target.isPrefixOf (c :: rest) then
        pos :: subFindAllAux target fuel (pos + max target.length 1)
          ((c :: rest).drop (max target.length 1))
      else subFindAllAux target fuel (pos + 1) rest

def subFindAll (target s : Str) : List Nat :=
  subFindAllAux target (s.length + 1) 0 s

/-! #### The concrete patterns of main.py -/

/-- Digit class of the re module. -/
def isDigitCh (c : Char) : Bool := c.isDigit

/-- The class A-Za-z. -/
def isAlphaCh (c : Char) : Bool := c.isAlpha

/-- Word characters for the word-boundary test of RACK_TIME_PATTERN. -/
def isWordCh (c : Char) : Bool := c.isAlphanum || c = '_'

/-- One or two digits. -/
def d12RE : RItem := RItem.cls isDigitCh 1 (some 2) false

/-- Exactly two digits. -/
def d2RE : RItem := RItem.cls isDigitCh 2 (some 2) false

/-- One or more whitespace characters. -/
def ws1RE : RItem := RItem.cls isPyWs 1 none false

/-- Zero or more whitespace characters. -/
def ws0RE : RItem := RItem.cls isPyWs 0 none false

/-- The weekday alternation of DAY_PATTERN and TRANSITION_LINE_PATTERN
(case-insensitive). -/
def dayAltRE : RItem :=
  RItem.alt [[RItem.lit "monday".data], [RItem.lit "tuesday".data],
    [RItem.lit "wednesday".data], [RItem.lit "thursday".data],
    [RItem.lit "friday".data], [RItem.lit "saturday".data],
    [RItem.lit "sunday".data]]

/-- The ordinal suffix alternation st|nd|rd|th. -/
def ordAltRE : RItem :=
  RItem.alt [[RItem.lit "st".data], [RItem.lit "nd".data],
    [RItem.lit "rd".data], [RItem.lit "th".data]]

/-- TIME_RANGE_PATTERN: one or two digits, colon, two digits, optional
spaces, dash, optional spaces, one or two digits, colon, two digits. -/
def timeRangeItems : List RItem :=
  [d12RE, RItem.lit [':'], d2RE, ws0RE, RItem.lit ['-'], ws0RE,
    d12RE, RItem.lit [':'], d2RE]

/-- The day-phrase body shared by DAY_PATTERN and the day_phrase group of
TRANSITION_LINE_PATTERN: weekday, spaces, one or two digits, optional
ordinal suffix, spaces, a run of letters. -/
def dayPhraseItems : List RItem :=
  [dayAltRE, ws1RE, d12RE, RItem.opt [ordAltRE] true, ws1RE,
    RItem.cls isAlphaCh 1 none false]

/-- DAY_PATTERN of main.py. -/
def dayPatternItems : List RItem := dayPhraseItems

/-- TRANSITION_LINE_PATTERN of main.py: group 1 is the transition phrase
with a lazy run of non-comma non-newline characters, group 2 the
transition number, group 3 the optional day phrase after an optional
comma, group 4 the time range reached through at most 80 non-digit
characters. -/
def transitionLineItems : List RItem :=
  [RItem.grp 1 [RItem.lit "transition".data, ws1RE,
      RItem.grp 2 [RItem.cls (fun c => c = '1' || c = '2') 1 (some 1) false],
      RItem.cls (fun c => !(c = ',' || c = '\n')) 0 none true],
    RItem.opt [RItem.lit [','], ws0RE] true,
    RItem.opt [RItem.grp 3 dayPhraseItems] true,
    RItem.cls (fun c => !c.isDigit) 0 (some 80) false,
    RItem.grp 4 timeRangeItems]

/-- RACK_TIME_PATTERN body (the word boundaries are checked by
rackTimeSearch). -/
def rackTimeItems : List RItem := [d12RE, RItem.lit [':'], d2RE]

/-- Match RACK_TIME_PATTERN at the current position, enforcing the
trailing word boundary through the continuation. -/
def rackBoundaryMatch (cs : Str) : Bool :=
  (reMatch reFuel rackTimeItems cs []
    (fun rest caps =>
      match rest with
      | [] => some (rest, caps)
      | c :: _ => if isWordCh c then none else some (rest, caps))).isSome

/-- RACK_TIME_PATTERN.search: a word-bounded HH:MM token occurs
somewhere in the text. -/
def rackTimeSearchAux : Option Char → Str → Bool
  | _, [] => false
  | prev, c :: rest =>
    ((match prev with
      | none => true
      | some p => !isWordCh p) && rackBoundaryMatch (c :: rest))
    || rackTimeSearchAux (some c) rest

def rackTimeSearch (s : Str) : Bool := rackTimeSearchAux none s

/-! ### The TransitionNoteExtractor (main.py) -/

/-- _needs_transition: case-insensitive keyword test on the question. -/
def needsTransition (question : Str) (tnum : Str) : Bool :=
  let lower := pyLower question
  let keywords : List Str :=
    if tnum = ['1'] then
      ["transition 1".data, "transition one".data, "t1".data, "rack".data,
        "bike bag".data, "blue bag".data, "bike check".data]
    else
      ["transition 2".data, "transition two".data, "t2".data, "red bag".data,
        "run bag".data, "run gear".data, "run equipment".data]
  keywords.any (fun kw => hasSub kw lower)

/-- _has_transition_schedule: the text mentions the transition, contains
a word-bounded bare time token, and mentions a supporting keyword. -/
def hasTransitionSchedule (text : Str) (tnum : Str) : Bool :=
  let lower := pyLower text
  if !(hasSub ("transition ".data ++ tnum) lower) then false
  else if !(rackTimeSearch text) then false
  else
    let keywords : List Str :=
      if tnum = ['1'] then
        ["transition 1".data, "bike".data, "blue bag".data, "rack".data]
      else
        ["transition 2".data, "red bag".data, "run bag".data,
          "transition two".data]
    keywords.any (fun kw => hasSub kw lower)

/-- The Transition-1 block of _augment_with_schedule_chunks: when
Transition 1 is needed and no selected chunk has a qualifying schedule
line, prepend the first qualifying not-yet-selected chunk in document
order. -/
def augmentT1 (chunks selected : List Chunk) (qLower : Str) : List Chunk :=
  if needsTransition qLower ['1']
      && !(selected.any (fun c => hasTransitionSchedule c.text ['1'])) then
    match chunks.find? (fun c =>
        !((selected.map Chunk.id).contains c.id)
          && hasTransitionSchedule c.text ['1']) with
    | some c => c :: selected
    | none => selected
  else selected

/-- The Transition-2 block of _augment_with_schedule_chunks: when
Transition 2 is needed and no chunk of the (possibly already augmented)
selection has a qualifying schedule line, append the first qualifying
not-yet-selected chunk in document order. -/
def augmentT2 (chunks sel1 : List Chunk) (qLower : Str) : List Chunk :=
  if needsTransition qLower ['2']
      && !(sel1.any (fun c => hasTransitionSchedule c.text ['2'])) then
    match chunks.find? (fun c =>
        !((sel1.map Chunk.id).contains c.id)
          && hasTransitionSchedule c.text ['2']) with
    | some c => sel1 ++ [c]
    | none => sel1
  else sel1

/-- _augment_with_schedule_chunks: the Transition-1 block followed by
the Transition-2 block on its result. -/
def augmentWithScheduleChunks (chunks : List Chunk) (selected : List Chunk)
    (question : Str) : List Chunk :=
  augmentT2 chunks (augmentT1 chunks selected (pyLower question)) (pyLower question)

/-- The nearest-preceding-day loop of _extract_transition_notes_from_text:
walk the day matches in order, remember the last one at or before idx,
stop at the first one after it. -/
def nearestDayLoop : List (Str × Nat) → Nat → Option Str → Option Str
  | [], _, acc => acc
  | (lbl, pos) :: rest, idx, acc =>
    if pos ≤ idx then nearestDayLoop rest idx (some lbl) else acc

/-- _extract_transition_notes_from_text: prefer TRANSITION_LINE_PATTERN
matches for the requested transition number; otherwise fall back to
pairing every occurrence of "transition N" with the nearest preceding
DAY_PATTERN match and all time ranges within the following 800
characters. -/
def extractTransitionNotesFromText (text : Str) (tnum : Str) :
    List (Option Str × Str) :=
  let results := (reFindIter transitionLineItems text).filterMap (fun m =>
    match capGet m.2.2 2 with
    | some numStr =>
      if numStr = tnum then
        some ((match capGet m.2.2 3 with
          | some d => if d.isEmpty then none else some (pyStrip d)
          | none => none), (capGet m.2.2 4).getD [])
      else none
    | none => none)
  if results ≠ [] then results
  else
    let dayMatches := (reFindIter dayPatternItems text).map (fun m =>
      (pyStrip ((text.drop m.1).take m.2.1), m.1))
    let lowered := pyLower text
    let target := "transition ".data ++ tnum
    (subFindAll target lowered).flatMap (fun idx =>
      let nearestDay := nearestDayLoop dayMatches idx none
      let seg := (text.drop idx).take 800
      let timeRanges := (reFindIter timeRangeItems seg).map (fun m =>
        (seg.drop m.1).take m.2.1)
      timeRanges.map (fun tr => (nearestDay, tr)))

/-- The collection loop of _build_transition_notes: gather the extracted
entries of every chunk mentioning the transition, deduplicated in first
occurrence order. -/
def collectNotes (chunks : List Chunk) (tnum : Str) :
    List (Option Str × Str) :=
  (chunks.foldl (fun (st : List (Option Str × Str) × List (Option Str × Str)) c =>
    if !(hasSub ("transition ".data ++ tnum) (pyLower c.text)) then st
    else (extractTransitionNotesFromText c.text tnum).foldl (fun st2 item =>
      if st2.2.contains item then st2
      else (st2.1 ++ [item], item :: st2.2)) st) ([], [])).1

/-- _is_race_morning_time: the hour before the first colon is at most
six. -/
def isRaceMorningTime (timeRange : Str) : Bool :=
  digitsToNat ((timeRange.splitOnP (· = ':')).headD []) ≤ 6

/-- Render an optional day label inside an f-string, with a default for
a missing or empty label (the `label or 'default'` idiom). -/
def labelOr (dflt : Str) : Option Str → Str
  | none => dflt
  | some d => if d.isEmpty then dflt else d

/-- Truthiness of the optional day label (item[0] and ... in Python). -/
def labelTruthy (o : Option Str) : Bool :=
  match o with
  | none => false
  | some d => !d.isEmpty

/-- The pre-race check-in note string of _select_transition1_notes, or
nothing when no entry was selected. -/
def t1PreNote : Option (Option Str × Str) → List Str
  | some (dayLabel, timeRange) =>
    ["Transition 1 check-in (".data ++ labelOr "Pre-race day".data dayLabel
      ++ "): ".data ++ timeRange]
  | none => []

/-- The race-morning note string of _select_transition1_notes (labeled
for final checks only), or nothing when no entry was selected. -/
def t1RaceNote : Option (Option Str × Str) → List Str
  | some (dayLabel, timeRange) =>
    ["Transition 1 race morning (".data ++ labelOr "Race morning".data dayLabel
      ++ "): ".data ++ timeRange ++ " (final checks only)".data]
  | none => []

/-- _select_transition1_notes. -/
def selectT1Notes (entries : List (Option Str × Str)) : List Str :=
  let preCands := entries.filter (fun it =>
    labelTruthy it.1 && hasSub "saturday".data (pyLower (it.1.getD [])))
  let preCands := if preCands = [] then
      entries.filter (fun it =>
        labelTruthy it.1 && hasSub "friday".data (pyLower (it.1.getD [])))
    else preCands
  let preNote := preCands.head?
  let raceCands := entries.filter (fun it =>
    labelTruthy it.1 && (hasSub "sunday".data (pyLower (it.1.getD []))
      || hasSub "race".data (pyLower (it.1.getD []))))
  let raceCands := if raceCands = [] then
      entries.filter (fun it => isRaceMorningTime it.2)
    else raceCands
  let raceNote := raceCands.head?
  t1PreNote preNote ++ t1RaceNote raceNote

/-- Render an optional day label exactly as a Python f-string would
(None prints as "None"). -/
def labelStr : Option Str → Str
  | none => "None".data
  | some d => d

/-- _select_transition2_notes. -/
def selectT2Notes (entries : List (Option Str × Str)) : List Str :=
  let friday := entries.filter (fun it =>
    labelTruthy it.1 && hasSub "friday".data (pyLower (it.1.getD [])))
  let saturday := entries.filter (fun it =>
    labelTruthy it.1 && hasSub "saturday".data (pyLower (it.1.getD [])))
  let notes :=
    (match friday.head? with
     | some (dayLabel, timeRange) =>
       ["Transition 2 red-bag check-in (".data ++ labelStr dayLabel
         ++ "): ".data ++ timeRange]
     | none => [])
    ++ (match saturday.head? with
     | some (dayLabel, timeRange) =>
       ["Transition 2 red-bag check-in (".data ++ labelStr dayLabel
         ++ "): ".data ++ timeRange]
     | none => [])
  if notes = [] then
    (entries.take 2).map (fun it =>
      "Transition 2 red-bag check-in (".data ++ labelOr "Pre-race".data it.1
        ++ "): ".data ++ it.2)
  else notes

/-- _build_transition_notes: collect and deduplicate entries over all
chunks mentioning the transition, then apply the per-transition
selection policy. -/
def buildTransitionNotes (chunks : List Chunk) (tnum : Str) : List Str :=
  let collected := collectNotes chunks tnum
  if collected = [] then []
  else if tnum = ['1'] then selectT1Notes collected
  else selectT2Notes collected

/-- _extract_transition_schedule_notes (the selected argument is unused
by the source as well). -/
def extractTransitionScheduleNotes (chunks : List Chunk) (question : Str)
    (selected : List Chunk) : List Str :=
  let qLower := pyLower question
  (if needsTransition qLower ['1'] then buildTransitionNotes chunks ['1'] else [])
  ++ (if needsTransition qLower ['2'] then buildTransitionNotes chunks ['2'] else [])

/-! #### Theorems for the transition-note claims -/

theorem filter_head?_eq_find? (p : α → Bool) (l : List α) :
    (l.filter p).head? = l.find? p := by
  induction l with
  | nil => rfl
  | cons a t ih => by_cases h : p a <;> simp [List.filter_cons, List.find?_cons, h, ih]

/-- The first of two optional results that is present. -/
def firstOr (a b : Option α) : Option α :=
  match a with
  | some x => some x
  | none => b

/-- A first-nonempty-filter selection is the firstOr of two first-match
selections. -/
theorem filter_sel_head [DecidableEq α] (p q : α → Bool) (l : List α) :
    (if l.filter p = [] then l.filter q else l.filter p).head?
      = firstOr (l.find? p) (l.find? q) := by
  unfold firstOr
  by_cases h : l.filter p = []
  · rw [if_pos h, filter_head?_eq_find?,
      show l.find? p = none from
        List.find?_eq_none.mpr (fun x hx => List.filter_eq_nil.mp h x hx)]
  · rw [if_neg h, filter_head?_eq_find?]
    cases hf : l.find? p with
    | none =>
      exact absurd (List.filter_eq_nil.mpr (fun a ha => List.find?_eq_none.mp hf a ha)) h
    | some x => rfl

/-- The Transition-1 note selection policy, written with first-match
selectors as the amended claim words it: the pre-race note is the first
entry whose day label mentions saturday, else the first mentioning
friday; the race-morning note is the first entry whose day label
mentions sunday or race, else the first entry whose start hour is at
most six; the race-morning note is labeled for final checks only. -/
def selectT1NotesSpec (entries : List (Option Str × Str)) : List Str :=
  let satP : (Option Str × Str) → Bool := fun it =>
    labelTruthy it.1 && hasSub "saturday".data (pyLower (it.1.getD []))
  let friP : (Option Str × Str) → Bool := fun it =>
    labelTruthy it.1 && hasSub "friday".data (pyLower (it.1.getD []))
  let sunRaceP : (Option Str × Str) → Bool := fun it =>
    labelTruthy it.1 && (hasSub "sunday".data (pyLower (it.1.getD []))
      || hasSub "race".data (pyLower (it.1.getD [])))
  let preNote := firstOr (entries.find? satP) (entries.find? friP)
  let raceNote := firstOr (entries.find? sunRaceP)
    (entries.find? (fun it => isRaceMorningTime it.2))
  t1PreNote preNote ++ t1RaceNote raceNote

/-- Chunk text of the concrete Transition-1 scenario of the claim. -/
def c4GoodChunk : Chunk :=
  ⟨['g'],
    ("Transition 1 check in Friday 12th September 09:00 - 17:00\nTransition 1 check in Sunday 14th September 04:30 - 06:00").data,
    1, [], 0, []⟩

/-- C4 (amended).  The Transition-1 selection equals the first-match
policy (first saturday-labeled entry else first friday-labeled entry for
the pre-race note; first sunday/race-labeled entry else the first entry
with start hour at most six for the race-morning note, labeled for final
checks only); and on chunk text containing a Transition 1 Friday entry
09:00 - 17:00 and a Transition 1 Sunday entry 04:30 - 06:00 the result
is exactly the Friday pre-race note and the Sunday race-morning note. -/
theorem t1_note_selection :
    (∀ entries : List (Option Str × Str),
      selectT1Notes entries = selectT1NotesSpec entries)
    ∧ buildTransitionNotes [c4GoodChunk] ['1']
      = [("Transition 1 check-in (Friday 12th September): 09:00 - 17:00").data,
         ("Transition 1 race morning (Sunday 14th September): 04:30 - 06:00 (final checks only)").data] := by
  constructor
  · intro entries
    unfold selectT1Notes selectT1NotesSpec
    simp only [filter_sel_head]
  · decide

/-- Chunk text for the C4 counterexample: two Transition-1 entries with
no day phrase, the earlier one starting at 06:00 and the later one at
04:30. -/
def c4BadChunk : Chunk :=
  ⟨['b'],
    ("Transition 1 opens 06:00 - 07:00 and Transition 1 final 04:30 - 06:00").data,
    1, [], 0, []⟩

/-- C4 counterexample.  Both collected entries qualify as race-morning
times and the one with the earliest start hour (04:30) is the second,
but the produced race-morning note references the first collected entry
(06:00 - 07:00), not the earliest one, refuting the claim's "entry with
the earliest start hour" selection. -/
theorem t1_race_note_counterexample :
    collectNotes [c4BadChunk] ['1']
      = [(none, ("06:00 - 07:00").data), (none, ("04:30 - 06:00").data)]
    ∧ isRaceMorningTime ("06:00 - 07:00").data = true
    ∧ isRaceMorningTime ("04:30 - 06:00").data = true
    ∧ digitsToNat ((("04:30 - 06:00").data.splitOnP (· = ':')).headD [])
      < digitsToNat ((("06:00 - 07:00").data.splitOnP (· = ':')).headD [])
    ∧ buildTransitionNotes [c4BadChunk] ['1']
      = [("Transition 1 race morning (Race morning): 06:00 - 07:00 (final checks only)").data] := by
  decide

/-- C9.  The note component degrades to an empty list: when the question
matches no transition keyword the extractor returns no notes, and when
no chunk text yields any extracted transition entry (in particular when
no chunk even mentions the transition) the per-transition builder
returns no notes. -/
theorem notes_total (chunks : List Chunk) (question : Str)
    (selected : List Chunk) :
    (needsTransition (pyLower question) ['1'] = false →
      needsTransition (pyLower question) ['2'] = false →
      extractTransitionScheduleNotes chunks question selected = [])
    ∧ (∀ tnum, (∀ c ∈ chunks, extractTransitionNotesFromText c.text tnum = []) →
        buildTransitionNotes chunks tnum = [])
    ∧ (∀ tnum, (∀ c ∈ chunks,
          hasSub ("transition ".data ++ tnum) (pyLower c.text) = false) →
        buildTransitionNotes chunks tnum = []) := by
  refine ⟨?_, ?_, ?_⟩
  · intro h1 h2
    unfold extractTransitionScheduleNotes
    simp only [h1, h2, Bool.false_eq_true, if_false, List.append_nil]
  · intro tnum h
    have hc : collectNotes chunks tnum = [] := by
      unfold collectNotes
      have hgen : ∀ st : List (Option Str × Str) × List (Option Str × Str),
          (chunks.foldl (fun st c =>
            if !(hasSub ("transition ".data ++ tnum) (pyLower c.text)) then st
            else (extractTransitionNotesFromText c.text tnum).foldl (fun st2 item =>
              if st2.2.contains item then st2
              else (st2.1 ++ [item], item :: st2.2)) st) st) = st := by
        induction chunks with
        | nil => intro st; rfl
        | cons c cs ih =>
          intro st
          have hch := h c (List.mem_cons_self c cs)
          rw [List.foldl_cons]
          by_cases hskip : hasSub ("transition ".data ++ tnum) (pyLower c.text)
          · simp only [hskip, Bool.not_true, Bool.false_eq_true, if_false, hch,
              List.foldl_nil]
            exact ih (fun x hx => h x (List.mem_cons_of_mem c hx)) st
          · simp only [Bool.not_eq_true'] at hskip
            simp only [hskip, Bool.not_false, if_true]
            exact ih (fun x hx => h x (List.mem_cons_of_mem c hx)) st
      exact congrArg Prod.fst (hgen ([], []))
    unfold buildTransitionNotes
    simp only [hc, if_true]
  · intro tnum h
    have hc : collectNotes chunks tnum = [] := by
      unfold collectNotes
      have hgen : ∀ st : List (Option Str × Str) × List (Option Str × Str),
          (chunks.foldl (fun st c =>
            if !(hasSub ("transition ".data ++ tnum) (pyLower c.text)) then st
            else (extractTransitionNotesFromText c.text tnum).foldl (fun st2 item =>
              if st2.2.contains item then st2
              else (st2.1 ++ [item], item :: st2.2)) st) st) = st := by
        induction chunks with
        | nil => intro st; rfl
        | cons c cs ih =>
          intro st
          have hch := h c (List.mem_cons_self c cs)
          rw [List.foldl_cons]
          simp only [hch, Bool.not_false, if_true]
          exact ih (fun x hx => h x (List.mem_cons_of_mem c hx)) st
      exact congrArg Prod.fst (hgen ([], []))
    unfold buildTransitionNotes
    simp only [hc, if_true]

/-- C9 witness input: a chunk and question with no transition content. -/
def w9C : Chunk := ⟨['c'], ("the swim course map").data, 1, [], 0, []⟩

theorem notes_total_witness :
    extractTransitionScheduleNotes [w9C] ("what time does the swim begin").data [] = []
    ∧ buildTransitionNotes [w9C] ['1'] = []
    ∧ buildTransitionNotes [w9C] ['2'] = [] := by
  obtain ⟨h1, h2, h3⟩ :=
    notes_total [w9C] ("what time does the swim begin").data []
  exact ⟨h1 (by decide) (by decide), h2 ['1'] (by decide), h3 ['2'] (by decide)⟩

/-! #### Theorems for the chunk-augmentation claim -/

theorem find?_congr_on {p1 p2 : α → Bool} :
    ∀ l : List α, (∀ x ∈ l, p1 x = p2 x) → l.find? p1 = l.find? p2 := by
  intro l
  induction l with
  | nil => intro _; rfl
  | cons a t ih =>
    intro h
    have ha := h a (List.mem_cons_self a t)
    by_cases hp : p1 a
    · rw [List.find?_cons_of_pos _ hp, List.find?_cons_of_pos _ (ha ▸ hp)]
    · rw [List.find?_cons_of_neg _ hp, List.find?_cons_of_neg _ (by rw [← ha]; exact hp),
        ih (fun x hx => h x (List.mem_cons_of_mem a hx))]

theorem chunk_id_inj {chunks : List Chunk} (hnd : (chunks.map Chunk.id).Nodup)
    {a b : Chunk} (ha : a ∈ chunks) (hb : b ∈ chunks) (hid : a.id = b.id) :
    a = b :=
  List.inj_on_of_nodup_map hnd ha hb hid

/-- When no chunk of the skip set qualifies, skipping it does not change
which chunk is found first: the id-based skip in the augmentation loops
is invisible. -/
theorem find_skip_eq (chunks sel : List Chunk) (t : Str)
    (hnd : (chunks.map Chunk.id).Nodup)
    (hsub : ∀ s ∈ sel, s ∈ chunks)
    (hno : ∀ s ∈ sel, hasTransitionSchedule s.text t = false) :
    chunks.find? (fun c => !((sel.map Chunk.id).contains c.id)
        && hasTransitionSchedule c.text t)
      = chunks.find? (fun c => hasTransitionSchedule c.text t) := by
  apply find?_congr_on
  intro c hc
  cases hts : hasTransitionSchedule c.text t with
  | false => simp [hts]
  | true =>
    have hnotin : ((sel.map Chunk.id).contains c.id) = false := by
      cases hcase : (sel.map Chunk.id).contains c.id with
      | false => rfl
      | true =>
        have hmem := (mem_contains_iff _ _).mp hcase
        obtain ⟨s, hs, hsid⟩ := List.mem_map.mp hmem
        have hsc : s = c := chunk_id_inj hnd (hsub s hs) hc hsid
        have := hno s hs
        rw [hsc, hts] at this
        exact absurd this (by simp)
    rw [hnotin]
    simp

/-- Decomposition of the Transition-1 block. -/
theorem augmentT1_cases (chunks selected : List Chunk) (qLower : Str)
    (hsub : ∀ s ∈ selected, s ∈ chunks)
    (hnd : (chunks.map Chunk.id).Nodup) :
    ∃ f : List Chunk,
      augmentT1 chunks selected qLower = f ++ selected
      ∧ f.length ≤ (if needsTransition qLower ['1'] = true then 1 else 0)
      ∧ (needsTransition qLower ['1'] = false → f = [])
      ∧ (∀ c ∈ f,
          chunks.find? (fun x => hasTransitionSchedule x.text ['1']) = some c
          ∧ ∀ s ∈ selected, hasTransitionSchedule s.text ['1'] = false)
      ∧ ((∃ s ∈ selected, hasTransitionSchedule s.text ['1'] = true) → f = []) := by
  unfold augmentT1
  by_cases hn : needsTransition qLower ['1']
  · by_cases hany : selected.any (fun c => hasTransitionSchedule c.text ['1'])
    · refine ⟨[], ?_, by simp, by simp, by simp, by simp⟩
      simp [hn, hany]
    · have hany' : (selected.any (fun c => hasTransitionSchedule c.text ['1'])) = false := by
        simpa using hany
      have hno : ∀ s ∈ selected, hasTransitionSchedule s.text ['1'] = false := by
        intro s hs
        simpa using List.any_eq_false.mp hany' s hs
      rw [show (needsTransition qLower ['1']
          && !(selected.any (fun c => hasTransitionSchedule c.text ['1']))) = true by
          simp [hn, hany],
        if_pos rfl, find_skip_eq chunks selected ['1'] hnd hsub hno]
      cases hfind : chunks.find? (fun x => hasTransitionSchedule x.text ['1']) with
      | some c =>
        refine ⟨[c], rfl, by simp [hn], by intro h; rw [h] at hn; exact absurd hn Bool.false_ne_true, ?_, ?_⟩
        · intro x hx
          rcases List.mem_singleton.mp hx with rfl
          exact ⟨rfl, hno⟩
        · rintro ⟨s, hs, hts⟩
          rw [hno s hs] at hts
          exact absurd hts (by simp)
      | none => exact ⟨[], rfl, by simp, by simp, by simp, by simp⟩
  · have hn' : needsTransition qLower ['1'] = false := by simpa using hn
    refine ⟨[], ?_, by simp, by simp, by simp, by simp⟩
    simp [hn']

/-- Decomposition of the Transition-2 block. -/
theorem augmentT2_cases (chunks sel1 : List Chunk) (qLower : Str)
    (hsub : ∀ s ∈ sel1, s ∈ chunks)
    (hnd : (chunks.map Chunk.id).Nodup) :
    ∃ b : List Chunk,
      augmentT2 chunks sel1 qLower = sel1 ++ b
      ∧ b.length ≤ (if needsTransition qLower ['2'] = true then 1 else 0)
      ∧ (needsTransition qLower ['2'] = false → b = [])
      ∧ (∀ c ∈ b,
          chunks.find? (fun x => hasTransitionSchedule x.text ['2']) = some c
          ∧ ∀ s ∈ sel1, hasTransitionSchedule s.text ['2'] = false)
      ∧ ((∃ s ∈ sel1, hasTransitionSchedule s.text ['2'] = true) → b = []) := by
  unfold augmentT2
  by_cases hn : needsTransition qLower ['2']
  · by_cases hany : sel1.any (fun c => hasTransitionSchedule c.text ['2'])
    · refine ⟨[], ?_, by simp, by simp, by simp, by simp⟩
      simp [hn, hany]
    · have hany' : (sel1.any (fun c => hasTransitionSchedule c.text ['2'])) = false := by
        simpa using hany
      have hno : ∀ s ∈ sel1, hasTransitionSchedule s.text ['2'] = false := by
        intro s hs
        simpa using List.any_eq_false.mp hany' s hs
      rw [show (needsTransition qLower ['2']
          && !(sel1.any (fun c => hasTransitionSchedule c.text ['2']))) = true by
          simp [hn, hany],
        if_pos rfl, find_skip_eq chunks sel1 ['2'] hnd hsub hno]
      cases hfind : chunks.find? (fun x => hasTransitionSchedule x.text ['2']) with
      | some c =>
        refine ⟨[c], rfl, by simp [hn], by intro h; rw [h] at hn; exact absurd hn Bool.false_ne_true, ?_, ?_⟩
        · intro x hx
          rcases List.mem_singleton.mp hx with rfl
          exact ⟨rfl, hno⟩
        · rintro ⟨s, hs, hts⟩
          rw [hno s hs] at hts
          exact absurd hts (by simp)
      | none => exact ⟨[], by simp, by simp, by simp, by simp, by simp⟩
  · have hn' : needsTransition qLower ['2'] = false := by simpa using hn
    refine ⟨[], by simp [hn'], by simp, by simp, by simp, by simp⟩

/-- C5.  The augmentation adds at most one chunk per needed transition:
the result is front ++ selected ++ back where front (for Transition 1)
and back (for Transition 2) have at most one element each and are empty
when the transition is not needed; any added chunk is the first
qualifying chunk of the document in original order and is only added
when no chunk of the current selection qualifies; with no needed
transition the selection is returned unchanged. -/
theorem augment_schedule_chunks (chunks selected : List Chunk) (q : Str)
    (hsub : ∀ s ∈ selected, s ∈ chunks)
    (hnd : (chunks.map Chunk.id).Nodup) :
    ∃ f b : List Chunk,
      augmentWithScheduleChunks chunks selected q = f ++ selected ++ b
      ∧ f.length ≤ (if needsTransition (pyLower q) ['1'] = true then 1 else 0)
      ∧ b.length ≤ (if needsTransition (pyLower q) ['2'] = true then 1 else 0)
      ∧ (needsTransition (pyLower q) ['1'] = false →
         needsTransition (pyLower q) ['2'] = false →
         augmentWithScheduleChunks chunks selected q = selected)
      ∧ (∀ c ∈ f,
          chunks.find? (fun x => hasTransitionSchedule x.text ['1']) = some c
          ∧ ∀ s ∈ selected, hasTransitionSchedule s.text ['1'] = false)
      ∧ ((∃ s ∈ selected, hasTransitionSchedule s.text ['1'] = true) → f = [])
      ∧ (∀ c ∈ b,
          chunks.find? (fun x => hasTransitionSchedule x.text ['2']) = some c
          ∧ ∀ s ∈ f ++ selected, hasTransitionSchedule s.text ['2'] = false)
      ∧ ((∃ s ∈ selected, hasTransitionSchedule s.text ['2'] = true) → b = []) := by
  obtain ⟨f, hf_eq, hf_len, hf_not, hf_props, hf_cov⟩ :=
    augmentT1_cases chunks selected (pyLower q) hsub hnd
  have hsub1 : ∀ s ∈ f ++ selected, s ∈ chunks := by
    intro s hs
    rcases List.mem_append.mp hs with hs | hs
    · exact List.mem_of_find?_eq_some (hf_props s hs).1
    · exact hsub s hs
  obtain ⟨b, hb_eq, hb_len, hb_not, hb_props, hb_cov⟩ :=
    augmentT2_cases chunks (f ++ selected) (pyLower q) hsub1 hnd
  refine ⟨f, b, ?_, hf_len, hb_len, ?_, hf_props, hf_cov, hb_props, ?_⟩
  · unfold augmentWithScheduleChunks
    rw [hf_eq, hb_eq, List.append_assoc]
  · intro h1 h2
    unfold augmentWithScheduleChunks
    rw [hf_eq, hb_eq, hf_not h1, hb_not h2]
    simp
  · rintro ⟨s, hs, hts⟩
    exact hb_cov ⟨s, List.mem_append.mpr (Or.inr hs), hts⟩

/-- C5 witness input: a qualifying document chunk, a selected chunk, and
a question without transition keywords. -/
def w5C1 : Chunk :=
  ⟨['q'], ("Transition 1 opens 09:00 daily").data, 2, [], 0, []⟩

def w5Sel : Chunk := ⟨['r'], ("the run course").data, 3, [], 1, []⟩

theorem augment_schedule_chunks_witness :
    augmentWithScheduleChunks [w5C1, w5Sel] [w5Sel]
      ("what time does the swim begin").data = [w5Sel] := by
  obtain ⟨f, b, _, _, _, hunch, _, _, _, _⟩ :=
    augment_schedule_chunks [w5C1, w5Sel] [w5Sel]
      ("what time does the swim begin").data (by decide) (by decide)
  exact hunch (by decide) (by decide)

/-! ### The ScheduleExtractor (backend/app/services/schedule_extractor.py)

pdfplumber is the collaborator: a page enters as its extract_words
output, a list of positioned word tokens. -/

/-- A structured schedule entry (document_registry.ScheduleItem). -/
structure ScheduleItem where
  time : Str
  activity : Str
  location : Option Str
deriving DecidableEq

/-- A day-level grouping of schedule items
(document_registry.ScheduleDay). -/
structure ScheduleDay where
  title : Str
  items : List ScheduleItem
deriving DecidableEq

/-- One positioned word token of pdfplumber's extract_words output. -/
structure Word where
  text : Str
  top : Frac
  x0 : Frac
  x1 : Frac
deriving DecidableEq

/-- The extraction-internal _Entry record. -/
structure SEntry where
  index : Nat
  text : Str
  top : Frac
  x0 : Frac
  x1 : Frac
deriving DecidableEq

instance : Inhabited Frac := ⟨f0⟩

instance : Inhabited SEntry := ⟨⟨0, [], f0, f0, f0⟩⟩

/-- Python's round(x, 1): scale by ten and round half to even. -/
def pyRound1 (t : Frac) : Frac :=
  let y := fmul t (Frac.ofInt 10)
  let n := y.num.fdiv (y.den : Int)
  let r := y.num - n * (y.den : Int)
  let m := if 2 * r < (y.den : Int) then n
    else if 2 * r > (y.den : Int) then n + 1
    else (if n % 2 = 0 then n else n + 1)
  ⟨m, 10, by decide⟩

/-- Python's min over a list of float values (first minimum on ties). -/
def fminList : List Frac → Frac
  | [] => f0
  | x :: xs => xs.foldl fmin x

/-- Python's max over a list of float values (first maximum on ties). -/
def fmaxList : List Frac → Frac
  | [] => f0
  | x :: xs => xs.foldl fmax x

/-- Python's sum over a list of float values. -/
def fsum (l : List Frac) : Frac := l.foldl fadd f0

/-- _group_words_by_line: bucket words by their top rounded to one
decimal (dict keys compare by value, in first-occurrence order), take
the minimum raw top of each bucket as the line top, sort each bucket by
x0 and the buckets by line top (both stably). -/
def groupWordsByLine (words : List Word) : List (Frac × List Word) :=
  let keys := words.foldl (fun ks w =>
    if ks.any (fun k => feq k (pyRound1 w.top)) then ks
    else ks ++ [pyRound1 w.top]) []
  let lines := keys.map (fun k =>
    let items := words.filter (fun w => feq (pyRound1 w.top) k)
    (fminList (items.map (fun w => w.top)),
      sSort (fun a b => fle a.x0 b.x0) items))
  sSort (fun a b => fle a.1 b.1) lines

/-- The weekday names, in the order of the source table. -/
def dayNamesList : List Str :=
  ["Monday".data, "Tuesday".data, "Wednesday".data, "Thursday".data,
    "Friday".data, "Saturday".data, "Sunday".data]

/-- _DAY_LINE_PATTERN applied to a line text: a case-insensitive weekday
name prefix, at least one whitespace character, then a nonempty
remainder.  Returns the matched day text (original case) and the
remainder.  (The line texts fed to this matcher are stripped joins of
PDF word tokens, so they neither end in whitespace nor contain a
newline.) -/
def dayLineMatch (text : Str) : Option (Str × Str) :=
  firstSome (fun day =>
    if ciPrefixOf day text then
      let after := text.drop day.length
      match after with
      | [] => none
      | c :: _ =>
        if isPyWs c then
          let ws := after.takeWhile isPyWs
          let rest := after.drop ws.length
          if rest ≠ [] ∧ !rest.contains '\n' then some (text.take day.length, rest)
          else none
        else none
    else none) dayNamesList

/-- _detect_day_rows: join each line's word texts, match the day-line
pattern, normalize the title, and keep the first occurrence of every
title together with the line top. -/
def detectDayRows (lines : List (Frac × List Word)) : List (Str × Frac) :=
  (lines.foldl (fun (st : List (Str × Frac) × List Str) ln =>
    let text := pyStrip (joinSpace (ln.2.map (fun w => w.text)))
    match dayLineMatch text with
    | none => st
    | some (day, remainder) =>
      let normalized := normalizeTitle
        (pyTitle day ++ [' '] ++ pyStrip remainder)
      if normalized = [] then st
      else if st.2.contains normalized then st
      else (st.1 ++ [(normalized, ln.1)], st.2 ++ [normalized])) ([], [])).1

/-- The membership test of _build_day_entries: a line belongs to the
segment when its top is strictly below the opening heading and strictly
above the closing one (none meaning the page bottom, float infinity in
the source). -/
def inSegment (startTop : Frac) (endTop : Option Frac) (top : Frac) : Bool :=
  !(fle top startTop) && (match endTop with
    | none => true
    | some e => !(fle e top))

/-- The closing bound of day segment i: the next heading's top, or none
(page bottom) for the last heading. -/
def segmentEnd (rows : List (Str × Frac)) (i : Nat) : Option Frac :=
  if i + 1 < rows.length then some (rows.getD (i + 1) ([], f0)).2 else none

/-- _build_day_entries: the words of the lines inside the segment,
sorted by (top, x0), stripped, non-empty, numbered consecutively. -/
def buildDayEntries (lines : List (Frac × List Word)) (startTop : Frac)
    (endTop : Option Frac) : List SEntry :=
  let words := (lines.filter (fun ln => inSegment startTop endTop ln.1)).flatMap
    (fun ln => ln.2)
  if words = [] then []
  else
    let sortedWords := sSort (fun a b =>
      flt a.top b.top || (feq a.top b.top && fle a.x0 b.x0)) words
    (sortedWords.foldl (fun (st : List SEntry × Nat) w =>
      let text := pyStrip w.text
      if text = [] then st
      else (st.1 ++ [⟨st.2, text, w.top, w.x0, w.x1⟩], st.2 + 1)) ([], 0)).1

/-! #### Theorem for the day-segment claim -/

/-- Input data for the C6 concrete test: day headings at vertical
positions 10, 50 and 90, and a token at vertical position 60. -/
def c6Words : List Word :=
  [⟨"Friday".data, Frac.ofInt 10, Frac.ofInt 0, Frac.ofInt 28⟩,
   ⟨"12th".data, Frac.ofInt 10, Frac.ofInt 32, Frac.ofInt 48⟩,
   ⟨"September".data, Frac.ofInt 10, Frac.ofInt 52, Frac.ofInt 90⟩,
   ⟨"Saturday".data, Frac.ofInt 50, Frac.ofInt 0, Frac.ofInt 34⟩,
   ⟨"13th".data, Frac.ofInt 50, Frac.ofInt 38, Frac.ofInt 52⟩,
   ⟨"September".data, Frac.ofInt 50, Frac.ofInt 56, Frac.ofInt 94⟩,
   ⟨"Sunday".data, Frac.ofInt 90, Frac.ofInt 0, Frac.ofInt 28⟩,
   ⟨"14th".data, Frac.ofInt 90, Frac.ofInt 32, Frac.ofInt 48⟩,
   ⟨"September".data, Frac.ofInt 90, Frac.ofInt 52, Frac.ofInt 90⟩,
   ⟨"09:00".data, Frac.ofInt 60, Frac.ofInt 0, Frac.ofInt 20⟩]

/-- C6.  Day segments are bounded by consecutive heading tops: the
concrete page with headings at 10, 50 and 90 assigns the token at 60 to
the segment opened at 50 and to neither other segment (the last
segment's bound is the page bottom); and in general, for strictly
descending-page headings, a line top lies inside at most one segment,
while every top below the last heading lies inside its unbounded
segment. -/
theorem day_segment_assignment :
    ((detectDayRows (groupWordsByLine c6Words)).map (fun r => r.2)
      = [Frac.ofInt 10, Frac.ofInt 50, Frac.ofInt 90]
    ∧ (buildDayEntries (groupWordsByLine c6Words) (Frac.ofInt 50)
        (some (Frac.ofInt 90))).map (fun e => e.text) = ["09:00".data]
    ∧ buildDayEntries (groupWordsByLine c6Words) (Frac.ofInt 10)
        (some (Frac.ofInt 50)) = []
    ∧ buildDayEntries (groupWordsByLine c6Words) (Frac.ofInt 90) none = [])
    ∧ (∀ (rows : List (Str × Frac)),
        (∀ i j, i < j → j < rows.length →
          flt (rows.getD i ([], f0)).2 (rows.getD j ([], f0)).2 = true) →
        ∀ i j t, i < rows.length → j < rows.length →
          inSegment (rows.getD i ([], f0)).2 (segmentEnd rows i) t = true →
          inSegment (rows.getD j ([], f0)).2 (segmentEnd rows j) t = true →
          i = j)
    ∧ (∀ (rows : List (Str × Frac)) (t : Frac), rows ≠ [] →
        flt (rows.getD (rows.length - 1) ([], f0)).2 t = true →
        segmentEnd rows (rows.length - 1) = none
        ∧ inSegment (rows.getD (rows.length - 1) ([], f0)).2
            (segmentEnd rows (rows.length - 1)) t = true) := by
  refine ⟨by decide, ?_, ?_⟩
  · intro rows hmono i j t hi hj hsegi hsegj
    by_contra hne
    have key : ∀ a b, a < b → b < rows.length →
        inSegment (rows.getD a ([], f0)).2 (segmentEnd rows a) t = true →
        inSegment (rows.getD b ([], f0)).2 (segmentEnd rows b) t = true →
        False := by
      intro a b hab hb hsega hsegb
      have hend : segmentEnd rows a = some (rows.getD (a + 1) ([], f0)).2 := by
        unfold segmentEnd
        rw [if_pos (by omega)]
      rw [hend] at hsega
      unfold inSegment at hsega hsegb
      simp only [Bool.and_eq_true, Bool.not_eq_true'] at hsega hsegb
      have h1 : fle (rows.getD (a + 1) ([], f0)).2 t = false := hsega.2
      have h2 : fle t (rows.getD b ([], f0)).2 = false := hsegb.1
      have h3 : fle (rows.getD (a + 1) ([], f0)).2 (rows.getD b ([], f0)).2 = true := by
        rcases Nat.lt_or_ge (a + 1) b with hlt | hge
        · exact (fle_iff_val _ _).mpr (le_of_lt ((flt_iff_val _ _).mp (hmono _ _ hlt hb)))
        · have : a + 1 = b := by omega
          rw [this]
          exact fle_refl _
      have hv1 : t.val < (rows.getD (a + 1) ([], f0)).2.val := by
        by_contra hc
        push_neg at hc
        have hcb := (fle_iff_val _ _).mpr hc
        rw [h1] at hcb
        exact Bool.false_ne_true hcb
      have hv2 : (rows.getD b ([], f0)).2.val < t.val := by
        by_contra hc
        push_neg at hc
        have hcb := (fle_iff_val _ _).mpr hc
        rw [h2] at hcb
        exact Bool.false_ne_true hcb
      have hv3 := (fle_iff_val _ _).mp h3
      linarith
    rcases Nat.lt_or_ge i j with hij | hij
    · exact key i j hij hj hsegi hsegj
    · exact key j i (by omega) hi hsegj hsegi
  · intro rows t hne hflt
    have hend : segmentEnd rows (rows.length - 1) = none := by
      unfold segmentEnd
      rw [if_neg (by
        have : rows.length ≠ 0 := by
          intro h0
          exact hne (List.length_eq_zero.mp h0)
        omega)]
    refine ⟨hend, ?_⟩
    unfold inSegment
    rw [hend]
    simp only [Bool.and_eq_true, Bool.not_eq_true']
    constructor
    · cases hcase : fle t (rows.getD (rows.length - 1) ([], f0)).2 with
      | false => rfl
      | true =>
        have hc1 := (fle_iff_val _ _).mp hcase
        have hc2 := (flt_iff_val _ _).mp hflt
        linarith
    · trivial

/-- Three day rows at tops 10, 50 and 90, used by the C6 witness. -/
def c6Rows : List (Str × Frac) :=
  [(['a'], Frac.ofInt 10), (['b'], Frac.ofInt 50), (['c'], Frac.ofInt 90)]

theorem day_segment_assignment_witness :
    inSegment (c6Rows.getD 1 ([], f0)).2 (segmentEnd c6Rows 1)
      (Frac.ofInt 60) = true
    ∧ (1 : Nat) = 1 :=
  ⟨by decide,
    day_segment_assignment.2.1 c6Rows
      (by
        intro i j hij hj
        simp only [c6Rows, List.length_cons, List.length_nil] at hj
        interval_cases j <;> interval_cases i <;> decide)
      1 1 (Frac.ofInt 60) (by decide) (by decide) (by decide) (by decide)⟩

/-! #### Schedule text cleaning helpers -/

/-- First index of a plain substring. -/
def findSubAux (needle : Str) : Nat → Nat → Str → Option Nat
  | 0, _, _ => none
  | _ + 1, pos, [] => if needle = [] then some pos else none
  | fuel + 1, pos, c :: rest =>
    if needle.isPrefixOf (c :: rest) then some pos
    else findSubAux needle fuel (pos + 1) rest

def findSub (needle hay : Str) : Option Nat :=
  findSubAux needle (hay.length + 1) 0 hay

/-- First index of a case-insensitive substring. -/
def findCiSubAux (needle : Str) : Nat → Nat → Str → Option Nat
  | 0, _, _ => none
  | _ + 1, pos, [] => if needle = [] then some pos else none
  | fuel + 1, pos, c :: rest =>
    if ciPrefixOf needle (c :: rest) then some pos
    else findCiSubAux needle fuel (pos + 1) rest

def findCiSub (needle hay : Str) : Option Nat :=
  findCiSubAux needle (hay.length + 1) 0 hay

/-- Last index of a plain substring (str.rfind, None when absent). -/
def rfindSub (needle hay : Str) : Option Nat :=
  ((List.range (hay.length + 1)).filter
    (fun i => needle.isPrefixOf (hay.drop i))).getLast?

/-- Drop trailing whitespace. -/
def dropTrailWs (s : Str) : Str := (s.reverse.dropWhile isPyWs).reverse

/-- re.split(r"\s+\*\s+", cleaned)[0]: the prefix before the first
whitespace-star-whitespace separator. -/
def splitStarSepAux : Nat → Str → Str
  | 0, s => s
  | fuel + 1, s =>
    match s with
    | [] => []
    | c :: rest =>
      let ws1 := (c :: rest).takeWhile isPyWs
      if ws1 ≠ [] then
        match (c :: rest).drop ws1.length with
        | '*' :: rest2 =>
          if rest2.takeWhile isPyWs ≠ [] then []
          else c :: splitStarSepAux fuel rest
        | _ => c :: splitStarSepAux fuel rest
      else c :: splitStarSepAux fuel rest

def splitStarSep (s : Str) : Str := splitStarSepAux (s.length + 1) s

/-- re.sub(r"\s*\d+\s+t100triathlon\.com$", "", s, flags=IGNORECASE):
strip a trailing page-number-plus-domain tail. -/
def stripDomainTail (s : Str) : Str :=
  let dom := "t100triathlon.com".data
  if dom.isSuffixOf (pyLower s) then
    let pre := s.take (s.length - dom.length)
    let w1 := pre.reverse.takeWhile isPyWs
    if w1 = [] then s
    else
      let pre2 := pre.take (pre.length - w1.length)
      let d := pre2.reverse.takeWhile (fun c => c.isDigit)
      if d = [] then s
      else
        let pre3 := pre2.take (pre2.length - d.length)
        dropTrailWs pre3
  else s

/-- re.sub(r"\s*<phrase>.*$", "", s, flags=IGNORECASE): cut the text at
the first case-insensitive occurrence of the phrase, dropping the
whitespace immediately before it.  (The inputs here are
whitespace-collapsed and contain no newline.) -/
def cutAtPhrase (phrase : Str) (s : Str) : Str :=
  match findCiSub phrase s with
  | some i => dropTrailWs (s.take i)
  | none => s

/-- re.sub(r"\s+\d+$", "", s): strip a trailing bare number and the
whitespace before it. -/
def stripTrailNumber (s : Str) : Str :=
  let d := s.reverse.takeWhile (fun c => c.isDigit)
  if d = [] then s
  else
    let pre := s.take (s.length - d.length)
    let w := pre.reverse.takeWhile isPyWs
    if w = [] then s else pre.take (pre.length - w.length)

/-- _clean_activity_text. -/
def cleanActivityText (value : Str) : Str :=
  let cleaned := collapseWs value
  if cleaned = [] then []
  else
    let c1 := splitStarSep cleaned
    let c2 := stripDomainTail c1
    let c3 := cutAtPhrase "your wave start time".data c2
    let c4 := cutAtPhrase "start times will also be listed".data c3
    let c5 := stripTrailNumber c4
    pyStrip (stripChars " -".data c5)

/-- re.sub(r"\s*\*+$", "", s): strip trailing stars and the whitespace
before them. -/
def stripTrailStars (s : Str) : Str :=
  let st := s.reverse.takeWhile (fun c => c = '*')
  if st = [] then s
  else dropTrailWs (s.take (s.length - st.length))

/-- re.sub(r"\s*\d{1,2}$", "", s): strip a trailing run of at most two
digits (and the whitespace before it); of a longer digit run only the
last two digits match the anchored pattern. -/
def stripTrailDigits12 (s : Str) : Str :=
  let d := s.reverse.takeWhile (fun c => c.isDigit)
  if d = [] then s
  else if d.length ≤ 2 then dropTrailWs (s.take (s.length - d.length))
  else s.take (s.length - 2)

/-- _looks_like_location_text. -/
def looksLikeLocationText (value : Str) : Bool :=
  let text := pyStrip value
  if text = [] || decide (text.length < 3) then false
  else if pyLower text = "tbc".data || pyLower text = "tba".data then false
  else if (text.filter (fun c => c.isAlpha)).length = 0 then false
  else if decide ((pySplitWs text).length > 12) then false
  else true

/-- _clean_location_text. -/
def cleanLocationText (value : Str) : Option Str :=
  let c1 := collapseWs value
  let c2 := stripChars "-,:".data c1
  let c3 := stripTrailStars c2
  let c4 := stripTrailDigits12 c3
  let c5 := pyStrip c4
  if c5 = [] then none
  else if !(looksLikeLocationText c5) then none
  else some c5

/-- The curated location keywords (_LOCATION_HINTS; a Python set whose
iteration order is immaterial because only the minimal find position is
used). -/
def locationHints : List Str :=
  ["park".data, "parks".data, "gardens".data, "garden".data, "dock".data,
   "docks".data, "museum".data, "room".data, "rooms".data, "car park".data,
   "church".data, "beach".data, "hall".data, "arena".data, "centre".data,
   "center".data, "quay".data, "harbour".data, "harbor".data, "street".data,
   "road".data, "school".data, "club".data, "pool".data, "stadium".data,
   "village".data, "pavilion".data, "plaza".data, "hotel".data,
   "promenade".data, "bay".data, "pier".data, "marina".data, "college".data,
   "square".data]

/-- Characters of the location class of the anchored split pattern:
letters, digits, whitespace, parentheses, apostrophe, ampersand, dash,
slash, dot and comma. -/
def locClassChar (c : Char) : Bool :=
  c.isAlpha || c.isDigit || isPyWs c
    || c = '(' || c = ')' || c = '\'' || c = '&' || c = '-' || c = '/'
    || c = '.' || c = ','

/-- The anchored trailing-capitalized-phrase search of
_split_activity_and_location_text: the shortest nonempty activity prefix
followed by whitespace and a location that starts with an ASCII capital
letter and consists of location-class characters up to the end of the
(newline-free) text. -/
def finalSplitMatch (text : Str) : Option (Str × Str) :=
  firstSome (fun p =>
    let rest := text.drop p
    let wsRun := rest.takeWhile isPyWs
    if wsRun = [] then none
    else firstSome (fun rr =>
      let r := wsRun.length - rr
      match rest.drop r with
      | c :: tail =>
        if ('A' ≤ c ∧ c ≤ 'Z') ∧ tail ≠ [] ∧ tail.all locClassChar then
          some (text.take p, rest.drop r)
        else none
      | [] => none) (List.range wsRun.length))
    ((List.range text.length).drop 1)

/-- _split_activity_and_location_text. -/
def splitActivityLocation (value : Str) : Str × Option Str :=
  let text := pyStrip value
  if text = [] then ([], none)
  else
    let lowered := pyLower text
    let candAt : List (Str × Str) :=
      match rfindSub " at ".data lowered with
      | some idx =>
        let left := stripChars " -,:".data (text.take idx)
        let right := stripChars " -,:".data (text.drop (idx + 4))
        if looksLikeLocationText right then [(left, right)] else []
      | none => []
    let candDash : List (Str × Str) :=
      ([[' ', '-', ' '], [' ', '–', ' '], [' ', '—', ' ']].flatMap
        (fun sep =>
          match rfindSub sep text with
          | some idx =>
            let left := stripChars " -,:".data (text.take idx)
            let right := stripChars " -,:".data (text.drop (idx + sep.length))
            if looksLikeLocationText right then [(left, right)] else []
          | none => []))
    let candColon : List (Str × Str) :=
      match rfindSub [':'] text with
      | some idx =>
        let left := pyStrip (text.take idx)
        let right := stripChars " -,:".data (text.drop (idx + 1))
        if looksLikeLocationText right then [(left, right)] else []
      | none => []
    let candidates := candAt ++ candDash ++ candColon
    match candidates.find? (fun lr =>
        !(pyStrip lr.1).isEmpty && !(pyStrip lr.2).isEmpty) with
    | some lr => (pyStrip lr.1, some (pyStrip lr.2))
    | none =>
      match finalSplitMatch text with
      | some (activity0, location0) =>
        let activityPart := pyStrip activity0
        let locationPart := stripChars "-,: ".data location0
        if activityPart ≠ [] ∧ locationPart ≠ [] then
          let loweredLoc := pyLower locationPart
          let hintPositions := locationHints.filterMap
            (fun hint => findSub hint loweredLoc)
          match hintPositions.foldl (fun acc p =>
              match acc with
              | none => some p
              | some q => some (min q p)) none with
          | none => (text, none)
          | some firstIndex =>
            let preSeg := dropTrailWs (locationPart.take firstIndex)
            let sufSeg := pyStrip (locationPart.drop firstIndex)
            let (activityPart2, sufSeg2) :=
              if preSeg ≠ [] then
                let parts := pySplitWs preSeg
                let (parts2, suf2) :=
                  match parts.getLast? with
                  | some lastPart =>
                    if (lastPart.headD ' ').isUpper then
                      (parts.dropLast, pyStrip (lastPart ++ [' '] ++ sufSeg))
                    else (parts, sufSeg)
                  | none => (parts, sufSeg)
                if parts2 ≠ [] then
                  (pyStrip (activityPart ++ [' '] ++ joinSpace parts2), suf2)
                else (activityPart, suf2)
              else (activityPart, sufSeg)
            if looksLikeLocationText sufSeg2 then (activityPart2, some sufSeg2)
            else (text, none)
        else (text, none)
      | none => (text, none)

/-! #### Strategy A: geometry-based item collection -/

/-- Dash characters of the time patterns (hyphen, en dash, em dash). -/
def isDashCh (c : Char) : Bool := c = '-' || c = '–' || c = '—'

/-- Anchored full match of a pattern (a match that must consume the
whole string). -/
def matchFull (items : List RItem) (cs : Str) : Bool :=
  (reMatch reFuel items cs []
    (fun rest _ => if rest.isEmpty then some (rest, []) else none)).isSome

/-- _looks_like_time_word: a full HH:MM or HH:MM-HH:MM token. -/
def looksLikeTimeWord (text : Str) : Bool :=
  matchFull [d12RE, RItem.lit [':'], d2RE,
    RItem.opt [RItem.cls isDashCh 1 (some 1) false,
      d12RE, RItem.lit [':'], d2RE] true] text

/-- _is_time_token: a time word, a dash, "to", or an optionally
negated HH:MM. -/
def isTimeToken (token : Str) : Bool :=
  let stripped := pyStrip token
  matchFull [RItem.alt
      [[d12RE, RItem.lit [':'], d2RE,
        RItem.opt [RItem.cls isDashCh 1 (some 1) false,
          d12RE, RItem.lit [':'], d2RE] true],
       [RItem.cls isDashCh 1 (some 1) false],
       [RItem.lit "to".data]]] stripped
  || matchFull [RItem.opt [RItem.lit ['-']] true,
      d12RE, RItem.lit [':'], d2RE] stripped

/-- _expand_time_group: extend from the seed index over consecutive
entries that stay within 1.2 vertical units of the seed and still look
like time tokens. -/
def expandTimeGroupAux (entries : List SEntry) (base : SEntry) :
    Nat → Nat → List Nat
  | 0, _ => []
  | fuel + 1, idx =>
    match entries.get? idx with
    | none => []
    | some cand =>
      if flt (Frac.mk10 12 10 (by decide)) (fabs (fsub cand.top base.top)) then []
      else if !(isTimeToken cand.text) then []
      else idx :: expandTimeGroupAux entries base fuel (idx + 1)

def expandTimeGroup (entries : List SEntry) (startIndex : Nat) : List Nat :=
  match entries.get? startIndex with
  | none => [startIndex]
  | some base =>
    startIndex :: expandTimeGroupAux entries base entries.length (startIndex + 1)

/-- _split_entries_by_column. -/
def splitEntriesByColumn (entries : List SEntry) :
    List SEntry × List SEntry :=
  if entries = [] then ([], [])
  else
    let uniquePositions := sSort fle
      (entries.foldl (fun ks e =>
        if ks.any (fun k => feq k (pyRound1 e.x0)) then ks
        else ks ++ [pyRound1 e.x0]) [])
    if uniquePositions.length ≤ 1 then (entries, [])
    else
      let gaps := (uniquePositions.zip uniquePositions.tail).map
        (fun lr => (fsub lr.2 lr.1, fdiv (fadd lr.1 lr.2) (Frac.ofInt 2)))
      match gaps with
      | [] => (entries, [])
      | g :: gs =>
        let largest := gs.foldl (fun acc y =>
          if fle y.1 acc.1 then acc else y) g
        if flt largest.1 (Frac.ofInt 35) then (entries, [])
        else
          let activityEntries := entries.filter (fun e => flt e.x0 largest.2)
          let locationEntries := entries.filter (fun e => !(flt e.x0 largest.2))
          if activityEntries = [] ∨ locationEntries = [] then (entries, [])
          else
            let activityMaxX := fmaxList (activityEntries.map (fun e => e.x1))
            let locationMinX := fminList (locationEntries.map (fun e => e.x0))
            if flt (fsub locationMinX activityMaxX) (Frac.ofInt 25) then
              (entries, [])
            else
              (sSort (fun a b =>
                  flt a.top b.top || (feq a.top b.top && fle a.x0 b.x0))
                activityEntries,
               sSort (fun a b =>
                  flt a.top b.top || (feq a.top b.top && fle a.x0 b.x0))
                locationEntries)

/-- _collect_description: tokens in the vertical band around the time
group and to the right of it, split into columns. -/
def collectDescription (entries : List SEntry) (timeGroup : List SEntry)
    (used : List Nat) : List SEntry × List SEntry × List Nat :=
  let timeTop := fdiv (fsum (timeGroup.map (fun e => e.top)))
    (Frac.ofInt timeGroup.length)
  let minTop := fsub timeTop (Frac.ofInt 12)
  let maxTop := fadd timeTop (Frac.ofInt 16)
  let minX := fadd (fmaxList (timeGroup.map (fun e => e.x1))) (Frac.ofInt 4)
  let collected := entries.filter (fun e =>
    !(used.contains e.index) && !(flt e.top minTop) && !(flt maxTop e.top)
      && !(flt e.x0 minX))
  let collectedIndices := collected.map (fun e => e.index)
  if collected = [] then ([], [], [])
  else
    let sortedCollected := sSort (fun a b =>
      flt a.top b.top || (feq a.top b.top && fle a.x0 b.x0)) collected
    let (activityEntries, locationEntries) := splitEntriesByColumn sortedCollected
    (activityEntries, locationEntries, collectedIndices)

/-- Replace every whitespace-dash-whitespace stretch by a single
" - " (re.sub of the dash pattern of the time normalizers). -/
def normDashesAux : Nat → Str → Str
  | 0, s => s
  | fuel + 1, s =>
    match s with
    | [] => []
    | c :: rest =>
      let ws1 := (c :: rest).takeWhile isPyWs
      match (c :: rest).drop ws1.length with
      | d :: rest2 =>
        if isDashCh d then
          ' ' :: '-' :: ' ' :: normDashesAux fuel (rest2.drop (rest2.takeWhile isPyWs).length)
        else c :: normDashesAux fuel rest
      | [] => c :: normDashesAux fuel rest

def normDashes (s : Str) : Str := normDashesAux (s.length + 1) s

/-- _normalize_time_tokens: join, canonicalize dashes, collapse
whitespace, strip, uppercase. -/
def normalizeTimeTokens (tokens : List Str) : Str :=
  pyUpper (collapseWs (normDashes (joinSpace tokens)))

/-- The per-item triple the within-day dedup key is built from: the
(uppercase-normalized) time verbatim, activity and location lowered. -/
def mixKey (it : ScheduleItem) : Str × Str × Str :=
  (it.time, pyLower it.activity, pyLower (it.location.getD []))

/-- The case-sensitive triple used by the cross-page merge. -/
def csKey (it : ScheduleItem) : Str × Str × Str :=
  (it.time, it.activity, it.location.getD [])

/-- The body of the _collect_items_for_range loop at one index. -/
def collectLoc (desc : List SEntry × List SEntry × List Nat) (activity : Str) :
    Str × Option Str :=
  let locationText0 : Option Str :=
    if desc.2.1 ≠ [] then
      cleanLocationText (joinSpace (desc.2.1.map (fun e => e.text)))
    else none
  match locationText0 with
  | some l => (activity, some l)
  | none => splitActivityLocation activity

def collectEmit (items : List ScheduleItem) (seen : List (Str × Str × Str))
    (used2 : List Nat) (timeText : Str) (pr : Str × Option Str) :
    List ScheduleItem × List (Str × Str × Str) × List Nat :=
  let key := (timeText, pyLower pr.1, pyLower (pr.2.getD []))
  if seen.contains key then (items, seen, used2)
  else (items ++ [⟨timeText, pr.1, pr.2⟩], seen ++ [key], used2)

def collectItemsStep (entries : List SEntry)
    (st : List ScheduleItem × List (Str × Str × Str) × List Nat) (idx : Nat) :
    List ScheduleItem × List (Str × Str × Str) × List Nat :=
  if st.2.2.contains idx then st
  else
    let entry := entries.getD idx default
    if !(looksLikeTimeWord entry.text) then st
    else
      let groupIndices := expandTimeGroup entries idx
      let used1 := st.2.2 ++ groupIndices
      let groupEntries := groupIndices.map (fun i => entries.getD i default)
      let timeText := normalizeTimeTokens (groupEntries.map (fun e => e.text))
      let desc := collectDescription entries groupEntries used1
      if desc.1 = [] then (st.1, st.2.1, used1)
      else
        let used2 := used1 ++ desc.2.2
        let rawActivity := joinSpace (desc.1.map (fun e => e.text))
        let activity := cleanActivityText rawActivity
        if activity = [] then (st.1, st.2.1, used2)
        else collectEmit st.1 st.2.1 used2 timeText (collectLoc desc activity)

/-- _collect_items_for_range. -/
def collectItemsForRange (lines : List (Frac × List Word)) (startTop : Frac)
    (endTop : Option Frac) : List ScheduleItem :=
  let entries := buildDayEntries lines startTop endTop
  if entries = [] then []
  else
    ((List.range entries.length).foldl (collectItemsStep entries)
      ([], [], [])).1

/-- _parse_schedule_page: group words into lines, detect day headings
and collect the items of every day segment. -/
def parseSchedulePage (words : List Word) : List ScheduleDay :=
  if words = [] then []
  else
    let lines := groupWordsByLine words
    let dayRows := detectDayRows lines
    if dayRows = [] then []
    else
      (List.range dayRows.length).filterMap (fun index =>
        let row := dayRows.getD index ([], f0)
        let items := collectItemsForRange lines row.2 (segmentEnd dayRows index)
        if items = [] then none
        else some ⟨row.1, items⟩)

/-- The item merge of _extract_with_layout for one already-collected
day: append only items whose case-sensitive triple is new. -/
def mrgStep (st : List ScheduleItem × List (Str × Str × Str))
    (item : ScheduleItem) : List ScheduleItem × List (Str × Str × Str) :=
  if st.2.contains (csKey item) then st
  else (st.1 ++ [item], st.2 ++ [csKey item])

def mergeItems (existing : List ScheduleItem) (newItems : List ScheduleItem) :
    List ScheduleItem :=
  (newItems.foldl mrgStep (existing, existing.map csKey)).1

/-- Merge one parsed day into the ordered collection keyed by title. -/
def mergeDay (acc : List ScheduleDay) (day : ScheduleDay) : List ScheduleDay :=
  if acc.any (fun d => d.title == day.title) then
    acc.map (fun d =>
      if d.title == day.title then ⟨d.title, mergeItems d.items day.items⟩ else d)
  else acc ++ [day]

/-- _extract_with_layout: parse every candidate page and merge the
day lists across pages (pdf is the list of pdfplumber pages, each given
by its extracted words; pages the 1-based candidate page numbers). -/
def extractWithLayout (pdf : List (List Word)) (pages : List Nat) :
    List ScheduleDay :=
  pages.foldl (fun acc pageNumber =>
    if pageNumber = 0 ∨ pdf.length < pageNumber then acc
    else (parseSchedulePage (pdf.getD (pageNumber - 1) [])).foldl mergeDay acc) []

/-! #### Strategy B: text fallback -/

/-- The schedule section keywords. -/
def schedKeywords : List Str := ["schedule".data, "time activity".data]

/-- The block-listed section phrases. -/
def blockPhrases : List Str :=
  ["location".data, "broadcast".data, "pro race".data, "cut-off".data]

/-- _looks_like_schedule_section. -/
def looksLikeScheduleSection (sectionTitle : Str) : Bool :=
  if sectionTitle = [] then false
  else
    let lowered := pyLower sectionTitle
    let squashed := lowered.filter (fun c => c ≠ ' ')
    if blockPhrases.any (fun p => hasSub p lowered || hasSub p squashed) then false
    else schedKeywords.any (fun k => hasSub k lowered)

/-- The known header strings skipped by the fallback parser. -/
def headerStrings : List Str :=
  ["TIME ACTIVITY".data, "TIME ACTIVITY LOCATION".data,
   "EVENT SCHEDULE".data, "RACE START TIMES".data, "PRIZE-GIVING TIMES".data]

/-- _should_skip_line. -/
def shouldSkipLine (line : Str) : Bool :=
  let cleaned := collapseWs line
  if cleaned = [] then true
  else if cleaned.head? = some '*' then true
  else if hasSub "t100triathlon.com".data (pyLower cleaned) then true
  else if "PAGE ".data.isPrefixOf (pyUpper cleaned) then true
  else if headerStrings.contains (pyUpper cleaned) then true
  else false

/-- re.findall(r"[A-Za-z0-9]+", line): the maximal alphanumeric runs. -/
def alnumTokens (s : Str) : List Str :=
  (s.splitOnP (fun c => !(c.isAlpha || c.isDigit))).filter (fun t => t ≠ [])

/-- The month names of the source table. -/
def monthNames : List Str :=
  ["JANUARY".data, "FEBRUARY".data, "MARCH".data, "APRIL".data, "MAY".data,
   "JUNE".data, "JULY".data, "AUGUST".data, "SEPTEMBER".data, "OCTOBER".data,
   "NOVEMBER".data, "DECEMBER".data]

/-- _ORDINAL_PATTERN: one or two digits followed by an ordinal suffix. -/
def isOrdinalToken (t : Str) : Bool :=
  let ds := t.takeWhile (fun c => c.isDigit)
  let rest := t.drop ds.length
  decide (1 ≤ ds.length) && decide (ds.length ≤ 2)
    && (["ST".data, "ND".data, "RD".data, "TH".data].contains (pyUpper rest))

/-- _assemble_day_label: extend the day name with digit, ordinal and
month tokens, stopping at the first unrecognized token; discard the
label if no date detail was found. -/
def assembleDayLabel (dayName : Str) (remainder : List Str) : Option Str :=
  let st := remainder.foldl
    (fun (st : List Str × Bool × Bool) token =>
      let (parts, detail, stopped) := st
      if stopped then st
      else if token ≠ [] ∧ token.all (fun c => c.isDigit) then
        (parts ++ [token], true, false)
      else if isOrdinalToken token then (parts ++ [token], true, false)
      else if monthNames.contains (pyUpper token) then
        (parts ++ [pyTitle token], true, false)
      else (parts, detail, true))
    ([dayName], false, false)
  if st.2.1 then some (normalizeTitle (joinSpace st.1)) else none

/-- _parse_day_label: find a weekday name among the concatenations of
the first up-to-three alphanumeric tokens and assemble the label. -/
def parseDayLabel (line : Str) : Option Str :=
  let tokens := alnumTokens line
  if tokens = [] then none
  else
    let upperTokens := tokens.map pyUpper
    firstSome (fun index =>
      let candidate := (upperTokens.take index).flatten
      firstSome (fun dayName =>
        if candidate = pyUpper dayName then
          assembleDayLabel dayName (tokens.drop index)
        else none) dayNamesList)
      ((List.range (min tokens.length 4)).drop 1)

/-- _TIME_PATTERN as a regex item sequence (group 1 is the whole time
phrase). -/
def timePatItems : List RItem :=
  [RItem.grp 1 [d12RE, RItem.lit [':'], d2RE,
    RItem.opt [ws0RE, RItem.cls isDashCh 1 (some 1) false, ws0RE,
      d12RE, RItem.lit [':'], d2RE] true,
    RItem.opt [ws0RE, RItem.alt [[RItem.lit "am".data], [RItem.lit "pm".data]]] true]]

/-- _TIME_PATTERN.match at the start of a line: the matched time text. -/
def timePatternMatch (line : Str) : Option Str :=
  match reMatchHere timePatItems line with
  | some (_, caps) => capGet caps 1
  | none => none

/-- re.sub(r"(EVENT|PRO|RACE)\s+SCHEDULE.*$", "", s, flags=IGNORECASE):
cut the text at the first keyword-plus-SCHEDULE occurrence. -/
def cutEventScheduleAux : Nat → Nat → Str → Option Nat
  | 0, _, _ => none
  | fuel + 1, pos, s =>
    match s with
    | [] => none
    | _ :: rest =>
      let hit := ["event".data, "pro".data, "race".data].any (fun kw =>
        ciPrefixOf kw s &&
          (let after := s.drop kw.length
           let ws := after.takeWhile isPyWs
           decide (1 ≤ ws.length) && ciPrefixOf "schedule".data (after.drop ws.length)))
      if hit then some pos else cutEventScheduleAux fuel (pos + 1) rest

def cutEventSchedule (s : Str) : Str :=
  match cutEventScheduleAux (s.length + 1) 0 s with
  | some pos => s.take pos
  | none => s

/-- re.sub(r"(?<=[a-z])(?=[A-Z])", " ", s): split camel-case
boundaries. -/
def camelSplit : Str → Str
  | [] => []
  | [c] => [c]
  | a :: b :: rest =>
    if ('a' ≤ a ∧ a ≤ 'z') ∧ ('A' ≤ b ∧ b ≤ 'Z') then
      a :: ' ' :: camelSplit (b :: rest)
    else a :: camelSplit (b :: rest)

/-- _parse_time_and_activity. -/
def parseTimeAndActivity (line : Str) : Option (Str × Str) :=
  match timePatternMatch line with
  | none => none
  | some timeRaw =>
    let timeValue := pyUpper (normDashes timeRaw)
    let remainder0 := stripChars "-–—".data (pyStrip (line.drop timeRaw.length))
    if remainder0 = [] then none
    else
      let remainder1 := pyStrip (remainder0.filter (fun c => c ≠ '*'))
      let remainder2 := cutEventSchedule remainder1
      let remainder3 := collapseWs remainder2
      if remainder3 = [] then none
      else if (parseDayLabel remainder3).isSome then none
      else some (timeValue, camelSplit remainder3)

/-- The tail of the item branch of the _extract_from_text line loop:
split off an inferred location, build the global dedup key and append
the entry to every section carrying the current day title. -/
def lineEmit (secs : List (Str × List (Str × Str × Option Str)))
    (seen : List (Str × Str × Str × Str)) (ct : Option Str) (title : Str)
    (timeValue : Str) (activityText : Str) :
    List (Str × List (Str × Str × Option Str))
      × List (Str × Str × Str × Str) × Option Str :=
  let spl := splitActivityLocation activityText
  let locationText := match spl.2 with
    | some inf => cleanLocationText inf
    | none => none
  let key := (pyLower title, timeValue, pyLower spl.1,
    pyLower (locationText.getD []))
  if seen.contains key then (secs, seen, ct)
  else
    let secs2 := if secs.any (fun s => s.1 == title) then
        secs.map (fun s =>
          if s.1 == title then (s.1, s.2 ++ [(timeValue, spl.1, locationText)])
          else s)
      else secs ++ [(title, [(timeValue, spl.1, locationText)])]
    (secs2, seen ++ [key], ct)

/-- The per-line state step of _extract_from_text.  The state carries
the sections in insertion order, the global seen-key set, and the
current day title. -/
def extractLineStep (sectionTitle : Str)
    (st : List (Str × List (Str × Str × Option Str))
      × List (Str × Str × Str × Str) × Option Str) (rawLine : Str) :
    List (Str × List (Str × Str × Option Str))
      × List (Str × Str × Str × Str) × Option Str :=
  let _ := sectionTitle
  let line := pyStrip rawLine
  if line = [] ∨ shouldSkipLine line then st
  else
    match parseDayLabel line with
    | some dayLabel =>
      let secs2 := if st.1.any (fun s => s.1 == dayLabel) then st.1
        else st.1 ++ [(dayLabel, [])]
      (secs2, st.2.1, some dayLabel)
    | none =>
      match parseTimeAndActivity line, st.2.2 with
      | none, _ => st
      | some _, none => st
      | some (timeValue, activityRaw), some title =>
        let activityText := cleanActivityText activityRaw
        if activityText = [] then st
        else lineEmit st.1 st.2.1 st.2.2 title timeValue activityText

/-- _extract_from_text: the fallback parser over plain text chunks. -/
def extractFromText (chunks : List PageChunk) : List ScheduleDay :=
  let final := chunks.foldl (fun st chunk =>
    if !(looksLikeScheduleSection chunk.sectionTitle) then st
    else if chunk.text = [] then st
    else (pySplitlines chunk.text).foldl (extractLineStep chunk.sectionTitle) st)
    ([], [], none)
  final.1.filterMap (fun s =>
    if s.2 = [] then none
    else some ⟨s.1, s.2.map (fun e => ⟨e.1, e.2.1, e.2.2⟩)⟩)


/-! #### Theorems for the dedup claim -/

/-- Generic bridge between Boolean membership and membership. -/
theorem contains_iff_mem [BEq α] [LawfulBEq α] (l : List α) (a : α) :
    l.contains a = true ↔ a ∈ l := by simp

/-- A map along a coarser key inherits Nodup from a finer one. -/
theorem nodup_map_refine {f g : α → β} {l : List α}
    (h : ∀ x y : α, f x = f y → g x = g y) (hg : (l.map g).Nodup) :
    (l.map f).Nodup := by
  induction l with
  | nil => exact List.nodup_nil
  | cons a t ih =>
    rw [List.map_cons, List.nodup_cons] at *
    refine ⟨?_, ih hg.2⟩
    intro hmem
    obtain ⟨b, hb, hfb⟩ := List.mem_map.mp hmem
    exact hg.1 (List.mem_map.mpr ⟨b, hb, h b a hfb⟩)

/-- Items whose case-sensitive triples agree have equal case-insensitive
triples. -/
theorem mixKey_of_csKey (x y : ScheduleItem) (h : csKey x = csKey y) :
    mixKey x = mixKey y := by
  have h1 := congrArg Prod.fst h
  have h2 := congrArg (fun p : Str × Str × Str => p.2.1) h
  have h3 := congrArg (fun p : Str × Str × Str => p.2.2) h
  simp only [csKey] at h1 h2 h3
  simp only [mixKey, h1, h2, h3]

/-- Invariant of the _collect_items_for_range loop: the emitted items have
pairwise distinct case-insensitive keys and every emitted key is recorded in
the seen set. -/
def colInv (st : List ScheduleItem × List (Str × Str × Str) × List Nat) : Prop :=
  (st.1.map mixKey).Nodup ∧ ∀ k ∈ st.1.map mixKey, k ∈ st.2.1

theorem colInv_push (items : List ScheduleItem) (seen : List (Str × Str × Str))
    (used : List Nat) (it : ScheduleItem)
    (h1 : (items.map mixKey).Nodup) (h2 : ∀ k ∈ items.map mixKey, k ∈ seen)
    (hfresh : ¬ (seen.contains (mixKey it) = true)) :
    colInv (items ++ [it], seen ++ [mixKey it], used) := by
  constructor
  · rw [List.map_append]
    refine List.nodup_append.mpr ⟨h1, List.nodup_singleton _, ?_⟩
    intro x hx hx'
    rw [List.map_singleton, List.mem_singleton] at hx'
    subst hx'
    exact hfresh ((contains_iff_mem _ _).mpr (h2 _ hx))
  · intro k hk
    rw [List.map_append, List.mem_append, List.map_singleton] at hk
    rcases hk with hk | hk
    · exact List.mem_append.mpr (Or.inl (h2 _ hk))
    · exact List.mem_append.mpr (Or.inr hk)

theorem collectEmit_inv (items : List ScheduleItem)
    (seen : List (Str × Str × Str)) (used2 : List Nat) (timeText : Str)
    (pr : Str × Option Str)
    (h1 : (items.map mixKey).Nodup) (h2 : ∀ k ∈ items.map mixKey, k ∈ seen) :
    colInv (collectEmit items seen used2 timeText pr) := by
  unfold collectEmit
  dsimp only
  split
  · exact ⟨h1, h2⟩
  next hfresh => exact colInv_push items seen used2 ⟨timeText, pr.1, pr.2⟩ h1 h2 hfresh

theorem collectItemsStep_inv (entries : List SEntry)
    (st : List ScheduleItem × List (Str × Str × Str) × List Nat) (idx : Nat)
    (h : colInv st) : colInv (collectItemsStep entries st idx) := by
  obtain ⟨h1, h2⟩ := h
  unfold collectItemsStep
  split
  · exact ⟨h1, h2⟩
  dsimp only
  split
  · exact ⟨h1, h2⟩
  split
  · exact ⟨h1, h2⟩
  split
  · exact ⟨h1, h2⟩
  exact collectEmit_inv _ _ _ _ _ h1 h2

theorem foldl_collectItemsStep_inv (entries : List SEntry) (idxs : List Nat)
    (st : List ScheduleItem × List (Str × Str × Str) × List Nat)
    (h : colInv st) : colInv (idxs.foldl (collectItemsStep entries) st) := by
  induction idxs generalizing st with
  | nil => exact h
  | cons a as ih =>
    rw [List.foldl_cons]
    exact ih _ (collectItemsStep_inv entries st a h)

theorem collectItemsForRange_nodup (lines : List (Frac × List Word))
    (startTop : Frac) (endTop : Option Frac) :
    ((collectItemsForRange lines startTop endTop).map mixKey).Nodup := by
  unfold collectItemsForRange
  dsimp only
  split
  · simp
  · exact (foldl_collectItemsStep_inv (buildDayEntries lines startTop endTop)
      (List.range (buildDayEntries lines startTop endTop).length)
      ([], [], []) ⟨by simp, by simp⟩).1

theorem parseSchedulePage_nodup (words : List Word) :
    ∀ day ∈ parseSchedulePage words, (day.items.map mixKey).Nodup := by
  intro day hday
  unfold parseSchedulePage at hday
  split at hday
  · simp at hday
  · dsimp only at hday
    split at hday
    · simp at hday
    · obtain ⟨index, hidx, hsome⟩ := List.mem_filterMap.mp hday
      split at hsome
      · exact absurd hsome (by simp)
      · rw [← Option.some.inj hsome]
        exact collectItemsForRange_nodup _ _ _

theorem foldl_mrgStep_inv (newItems : List ScheduleItem)
    (st : List ScheduleItem × List (Str × Str × Str))
    (h1 : (st.1.map csKey).Nodup) (h2 : ∀ k ∈ st.1.map csKey, k ∈ st.2) :
    (((newItems.foldl mrgStep st).1.map csKey)).Nodup := by
  induction newItems generalizing st with
  | nil => exact h1
  | cons item rest ih =>
    rw [List.foldl_cons]
    by_cases hc : st.2.contains (csKey item) = true
    · rw [show mrgStep st item = st from by unfold mrgStep; rw [if_pos hc]]
      exact ih st h1 h2
    · rw [show mrgStep st item = (st.1 ++ [item], st.2 ++ [csKey item]) from by
        unfold mrgStep; rw [if_neg hc]]
      refine ih _ ?_ ?_
      · rw [List.map_append]
        refine List.nodup_append.mpr ⟨h1, List.nodup_singleton _, ?_⟩
        intro x hx hx'
        rw [List.map_singleton, List.mem_singleton] at hx'
        subst hx'
        exact hc ((contains_iff_mem _ _).mpr (h2 _ hx))
      · intro k hk
        rw [List.map_append, List.mem_append, List.map_singleton] at hk
        rcases hk with hk | hk
        · exact List.mem_append.mpr (Or.inl (h2 _ hk))
        · exact List.mem_append.mpr (Or.inr hk)

theorem mergeItems_nodup (existing newItems : List ScheduleItem)
    (h : (existing.map csKey).Nodup) :
    ((mergeItems existing newItems).map csKey).Nodup := by
  unfold mergeItems
  exact foldl_mrgStep_inv newItems (existing, existing.map csKey) h
    (fun k hk => hk)

theorem mergeDay_inv (acc : List ScheduleDay) (day : ScheduleDay)
    (hacc : ∀ d ∈ acc, (d.items.map csKey).Nodup)
    (hday : (day.items.map csKey).Nodup) :
    ∀ d ∈ mergeDay acc day, (d.items.map csKey).Nodup := by
  intro d hd
  unfold mergeDay at hd
  split at hd
  · obtain ⟨d0, hd0, heq⟩ := List.mem_map.mp hd
    split at heq
    · rw [← heq]
      exact mergeItems_nodup d0.items day.items (hacc d0 hd0)
    · rw [← heq]
      exact hacc d0 hd0
  · rcases List.mem_append.mp hd with hd | hd
    · exact hacc d hd
    · rw [List.mem_singleton.mp hd]
      exact hday

theorem foldl_mergeDay_inv (ds : List ScheduleDay) (acc : List ScheduleDay)
    (hacc : ∀ d ∈ acc, (d.items.map csKey).Nodup)
    (hds : ∀ d ∈ ds, (d.items.map csKey).Nodup) :
    ∀ d ∈ ds.foldl mergeDay acc, (d.items.map csKey).Nodup := by
  induction ds generalizing acc with
  | nil => exact fun d hd => hacc d hd
  | cons d0 rest ih =>
    intro d hd
    rw [List.foldl_cons] at hd
    exact ih (mergeDay acc d0)
      (mergeDay_inv acc d0 hacc (hds d0 (List.mem_cons_self d0 rest)))
      (fun x hx => hds x (List.mem_cons_of_mem d0 hx)) d hd

theorem extractWithLayout_nodup (pdf : List (List Word)) (pages : List Nat) :
    ∀ day ∈ extractWithLayout pdf pages, (day.items.map csKey).Nodup := by
  unfold extractWithLayout
  have hgen : ∀ (ps : List Nat) (acc : List ScheduleDay),
      (∀ d ∈ acc, (d.items.map csKey).Nodup) →
      ∀ day ∈ ps.foldl (fun acc pageNumber =>
          if pageNumber = 0 ∨ pdf.length < pageNumber then acc
          else (parseSchedulePage (pdf.getD (pageNumber - 1) [])).foldl
            mergeDay acc) acc,
        (day.items.map csKey).Nodup := by
    intro ps
    induction ps with
    | nil => exact fun acc h day hday => h day hday
    | cons p rest ih =>
      intro acc h day hday
      rw [List.foldl_cons] at hday
      by_cases hp : p = 0 ∨ pdf.length < p
      · rw [if_pos hp] at hday
        exact ih acc h day hday
      · rw [if_neg hp] at hday
        exact ih _ (foldl_mergeDay_inv _ acc h (fun d hd =>
          nodup_map_refine (fun x y hxy => mixKey_of_csKey x y hxy)
            (parseSchedulePage_nodup (pdf.getD (p - 1) []) d hd))) day hday
  exact hgen pages [] (by simp)

/-- The case-insensitive key of one section entry of the text fallback. -/
def entryKey (e : Str × Str × Option Str) : Str × Str × Str :=
  (e.1, pyLower e.2.1, pyLower (e.2.2.getD []))

/-- The global dedup key of the text fallback: the lowered day title
prepended to the entry key. -/
def fullKey (title : Str) (e : Str × Str × Option Str) :
    Str × Str × Str × Str :=
  (pyLower title, e.1, pyLower e.2.1, pyLower (e.2.2.getD []))

theorem fullKey_congr (t : Str) (x y : Str × Str × Option Str)
    (h : entryKey x = entryKey y) : fullKey t x = fullKey t y := by
  have h1 := congrArg Prod.fst h
  have h2 := congrArg (fun p : Str × Str × Str => p.2.1) h
  have h3 := congrArg (fun p : Str × Str × Str => p.2.2) h
  simp only [entryKey] at h1 h2 h3
  simp only [fullKey, h1, h2, h3]

/-- Invariant of the _extract_from_text line loop: each section's entries
have pairwise distinct case-insensitive keys and each entry's full key is
recorded in the global seen set. -/
def secInv (st : List (Str × List (Str × Str × Option Str))
    × List (Str × Str × Str × Str) × Option Str) : Prop :=
  ∀ sec ∈ st.1,
    (sec.2.map entryKey).Nodup ∧ ∀ e ∈ sec.2, fullKey sec.1 e ∈ st.2.1

theorem secPush (seen : List (Str × Str × Str × Str)) (title : Str)
    (entries : List (Str × Str × Option Str)) (e0 : Str × Str × Option Str)
    (h1 : (entries.map entryKey).Nodup)
    (h2 : ∀ e ∈ entries, fullKey title e ∈ seen)
    (hfresh : fullKey title e0 ∉ seen) :
    ((entries ++ [e0]).map entryKey).Nodup ∧
      ∀ e ∈ entries ++ [e0], fullKey title e ∈ seen ++ [fullKey title e0] := by
  constructor
  · rw [List.map_append]
    refine List.nodup_append.mpr ⟨h1, List.nodup_singleton _, ?_⟩
    intro x hx hx'
    rw [List.map_singleton, List.mem_singleton] at hx'
    subst hx'
    obtain ⟨b, hb, hbk⟩ := List.mem_map.mp hx
    exact hfresh (fullKey_congr title b e0 hbk ▸ h2 b hb)
  · intro e he
    rcases List.mem_append.mp he with he | he
    · exact List.mem_append.mpr (Or.inl (h2 e he))
    · rw [List.mem_singleton.mp he]
      exact List.mem_append.mpr (Or.inr (List.mem_singleton.mpr rfl))

theorem secUpdate_inv (secs : List (Str × List (Str × Str × Option Str)))
    (seen : List (Str × Str × Str × Str)) (ct : Option Str) (title : Str)
    (e0 : Str × Str × Option Str)
    (h : ∀ sec ∈ secs, (sec.2.map entryKey).Nodup ∧
      ∀ e ∈ sec.2, fullKey sec.1 e ∈ seen)
    (hfresh : fullKey title e0 ∉ seen) :
    secInv (
      (if secs.any (fun s => s.1 == title) then
        secs.map (fun s => if s.1 == title then (s.1, s.2 ++ [e0]) else s)
      else secs ++ [(title, [e0])]),
      seen ++ [fullKey title e0], ct) := by
  intro sec hsec
  by_cases hany : secs.any (fun s => s.1 == title) = true
  · rw [if_pos hany] at hsec
    obtain ⟨s0, hs0, heq⟩ := List.mem_map.mp hsec
    by_cases hbeq : (s0.1 == title) = true
    · rw [if_pos hbeq] at heq
      have ht : s0.1 = title := by simpa using hbeq
      subst ht
      rw [← heq]
      have hps := h s0 hs0
      have hpush := secPush seen s0.1 s0.2 e0 hps.1 hps.2 hfresh
      exact ⟨hpush.1, fun e he => hpush.2 e he⟩
    · rw [if_neg hbeq] at heq
      rw [← heq]
      exact ⟨(h s0 hs0).1,
        fun e he => List.mem_append.mpr (Or.inl ((h s0 hs0).2 e he))⟩
  · rw [if_neg hany] at hsec
    rcases List.mem_append.mp hsec with hsec | hsec
    · exact ⟨(h sec hsec).1,
        fun e he => List.mem_append.mpr (Or.inl ((h sec hsec).2 e he))⟩
    · rw [List.mem_singleton.mp hsec]
      refine ⟨List.nodup_singleton _, ?_⟩
      intro e he
      rw [List.mem_singleton.mp he]
      exact List.mem_append.mpr (Or.inr (List.mem_singleton.mpr rfl))

theorem lineEmit_inv (secs : List (Str × List (Str × Str × Option Str)))
    (seen : List (Str × Str × Str × Str)) (ct : Option Str) (title : Str)
    (timeValue : Str) (activityText : Str)
    (h : ∀ sec ∈ secs, (sec.2.map entryKey).Nodup ∧
      ∀ e ∈ sec.2, fullKey sec.1 e ∈ seen) :
    secInv (lineEmit secs seen ct title timeValue activityText) := by
  unfold lineEmit
  dsimp only
  split
  · exact h
  next hfresh =>
    exact secUpdate_inv secs seen ct title
      (timeValue, (splitActivityLocation activityText).1,
        (match (splitActivityLocation activityText).2 with
          | some inf => cleanLocationText inf
          | none => none : Option Str))
      h (fun hm => hfresh ((contains_iff_mem _ _).mpr hm))

theorem extractLineStep_inv (sectionTitle : Str)
    (st : List (Str × List (Str × Str × Option Str))
      × List (Str × Str × Str × Str) × Option Str) (rawLine : Str)
    (h : secInv st) : secInv (extractLineStep sectionTitle st rawLine) := by
  unfold extractLineStep
  dsimp only
  split
  · exact h
  split
  · intro sec hsec
    split at hsec
    · exact h sec hsec
    · rcases List.mem_append.mp hsec with hsec | hsec
      · exact h sec hsec
      · rw [List.mem_singleton.mp hsec]
        exact ⟨List.nodup_nil, by simp⟩
  · split
    · exact h
    · exact h
    · split
      · exact h
      · exact lineEmit_inv st.1 st.2.1 st.2.2 _ _ _ h

theorem foldl_extractLineStep_inv (sectionTitle : Str) (ls : List Str)
    (st : List (Str × List (Str × Str × Option Str))
      × List (Str × Str × Str × Str) × Option Str) (h : secInv st) :
    secInv (ls.foldl (extractLineStep sectionTitle) st) := by
  induction ls generalizing st with
  | nil => exact h
  | cons l rest ih =>
    rw [List.foldl_cons]
    exact ih _ (extractLineStep_inv sectionTitle st l h)

theorem foldl_chunkStep_inv (cs : List PageChunk)
    (st : List (Str × List (Str × Str × Option Str))
      × List (Str × Str × Str × Str) × Option Str) (h : secInv st) :
    secInv (cs.foldl (fun st chunk =>
      if !(looksLikeScheduleSection chunk.sectionTitle) then st
      else if chunk.text = [] then st
      else (pySplitlines chunk.text).foldl (extractLineStep chunk.sectionTitle) st)
      st) := by
  induction cs generalizing st with
  | nil => exact h
  | cons c rest ih =>
    rw [List.foldl_cons]
    refine ih _ ?_
    dsimp only
    split
    · exact h
    · split
      · exact h
      · exact foldl_extractLineStep_inv c.sectionTitle (pySplitlines c.text) st h

theorem extractFromText_nodup (chunks : List PageChunk) :
    ∀ day ∈ extractFromText chunks, (day.items.map mixKey).Nodup := by
  intro day hday
  unfold extractFromText at hday
  dsimp only at hday
  obtain ⟨s, hs, hsome⟩ := List.mem_filterMap.mp hday
  have hinv := foldl_chunkStep_inv chunks ([], [], none)
    (fun sec hsec => absurd hsec (by simp))
  split at hsome
  · exact absurd hsome (by simp)
  · rw [← Option.some.inj hsome]
    show (List.map mixKey
      (s.2.map (fun e => (⟨e.1, e.2.1, e.2.2⟩ : ScheduleItem)))).Nodup
    rw [List.map_map]
    exact (hinv s hs).1

/-- Page-1 words of the dedup example: a Saturday heading and one
09:00 Swim Start row. -/
def c3PageA : List Word :=
  [⟨"Saturday".data, Frac.ofInt 10, Frac.ofInt 0, Frac.ofInt 34⟩,
   ⟨"13th".data, Frac.ofInt 10, Frac.ofInt 38, Frac.ofInt 52⟩,
   ⟨"September".data, Frac.ofInt 10, Frac.ofInt 56, Frac.ofInt 94⟩,
   ⟨"09:00".data, Frac.ofInt 30, Frac.ofInt 10, Frac.ofInt 40⟩,
   ⟨"Swim".data, Frac.ofInt 30, Frac.ofInt 50, Frac.ofInt 70⟩,
   ⟨"Start".data, Frac.ofInt 30, Frac.ofInt 75, Frac.ofInt 95⟩]

/-- Page-2 words of the dedup example: the same day and row with the
activity upper-cased. -/
def c3PageB : List Word :=
  [⟨"Saturday".data, Frac.ofInt 10, Frac.ofInt 0, Frac.ofInt 34⟩,
   ⟨"13th".data, Frac.ofInt 10, Frac.ofInt 38, Frac.ofInt 52⟩,
   ⟨"September".data, Frac.ofInt 10, Frac.ofInt 56, Frac.ofInt 94⟩,
   ⟨"09:00".data, Frac.ofInt 30, Frac.ofInt 10, Frac.ofInt 40⟩,
   ⟨"SWIM".data, Frac.ofInt 30, Frac.ofInt 50, Frac.ofInt 70⟩,
   ⟨"START".data, Frac.ofInt 30, Frac.ofInt 75, Frac.ofInt 95⟩]

/-- C3 counterexample: merging the same day title across two pages keeps two
ScheduleItems whose case-insensitive (time, activity, location) triples
coincide, because the merge loop of the layout strategy deduplicates by the
case-sensitive triple: the merged Saturday day holds both "Swim Start" and
"SWIM START" at 09:00, and their lowered triples are equal. -/
theorem schedule_dedup_counterexample :
    extractWithLayout [c3PageA, c3PageB] [1, 2] =
      [⟨"Saturday 13Th September".data,
        [⟨"09:00".data, "Swim Start".data, none⟩,
         ⟨"09:00".data, "SWIM START".data, none⟩]⟩] ∧
    mixKey ⟨"09:00".data, "Swim Start".data, none⟩ =
      mixKey ⟨"09:00".data, "SWIM START".data, none⟩ := by
  constructor
  · decide
  · decide

/-- C3 (amended): within each ScheduleDay, the per-page layout collection and
the text fallback deduplicate by the case-insensitive (time, activity,
location) triple; the cross-page merge of the layout strategy deduplicates
only by the case-sensitive triple, so after merging pages the items of a day
are pairwise distinct up to the case-sensitive key (but not necessarily up to
the case-insensitive one). -/
theorem schedule_dedup (pdf : List (List Word)) (pages : List Nat)
    (words : List Word) (chunks : List PageChunk) :
    (∀ day ∈ extractWithLayout pdf pages, (day.items.map csKey).Nodup) ∧
    (∀ day ∈ parseSchedulePage words, (day.items.map mixKey).Nodup) ∧
    (∀ day ∈ extractFromText chunks, (day.items.map mixKey).Nodup) :=
  ⟨extractWithLayout_nodup pdf pages, parseSchedulePage_nodup words,
    extractFromText_nodup chunks⟩

/-- Witness for the amended dedup theorem at the concrete two-page input. -/
theorem schedule_dedup_witness :
    ((⟨"Saturday 13Th September".data,
        [⟨"09:00".data, "Swim Start".data, none⟩,
         ⟨"09:00".data, "SWIM START".data, none⟩]⟩ : ScheduleDay).items.map
      csKey).Nodup :=
  (schedule_dedup [c3PageA, c3PageB] [1, 2] [] []).1
    ⟨"Saturday 13Th September".data,
      [⟨"09:00".data, "Swim Start".data, none⟩,
       ⟨"09:00".data, "SWIM START".data, none⟩]⟩ (by decide)

end AskMyRace
